import Mathlib

/-!
Verification of the schema-registry component of the shinto library
(`src/shinto/jsonschema.py`, class `JsonSchemaRegistry`) against its
natural-language specification.

Shallow-embedding conventions:
* JSON documents (Python dicts / lists / scalars as produced by `json.load`)
  are the inductive type `Json` below.  Python dict semantics are modelled by
  ordered association structures (`JsonFields`); documents are assumed to be
  in a canonical representation (no duplicate keys), so Python's
  order-insensitive `dict.__eq__` coincides with structural equality on the
  canonical form, which is what every operation below constructs.
* `pathlib.Path(s).resolve()` is modelled as the identity on already-resolved
  abstract path strings.
* Python exceptions are modelled by `Except (PyErr × RegState) _`: an
  operation either returns a value together with the mutated registry state,
  or an error together with the state at the moment of the raise (Python
  exceptions do not roll anything back, so the carried state records exactly
  which mutations had happened before the raise).
* `str.lower()` is modelled as ASCII lowering (`Char.toLower`); the
  characters on which full Unicode lowering differs are all removed by the
  subsequent `re.sub(r"[^a-z0-9_]", "", ...)` filter in the one place
  `lower()` is used.
-/

mutual

/-- JSON values, as loaded by `json.load` in `src/shinto/jsonschema.py`.
Mutually inductive with explicit item/field lists so that every function on
documents is structurally recursive (and hence computable by `decide`). -/
inductive Json where
  | null : Json
  | bool (b : Bool) : Json
  | num (n : Int) : Json
  | str (s : String) : Json
  | arr (xs : JsonItems) : Json
  | obj (fields : JsonFields) : Json

/-- The element list of a JSON array. -/
inductive JsonItems where
  | nil : JsonItems
  | cons (hd : Json) (tl : JsonItems) : JsonItems

/-- The ordered key/value entries of a JSON object (a Python dict preserves
insertion order; keys are unique in the canonical representation). -/
inductive JsonFields where
  | nil : JsonFields
  | cons (key : String) (val : Json) (tl : JsonFields) : JsonFields

end

mutual

/-- Boolean structural equality on JSON values. -/
def Json.beq : Json → Json → Bool
  | .null, .null => true
  | .bool a, .bool b => a == b
  | .num a, .num b => a == b
  | .str a, .str b => a == b
  | .arr a, .arr b => JsonItems.beq a b
  | .obj a, .obj b => JsonFields.beq a b
  | _, _ => false

/-- Boolean structural equality on JSON array items. -/
def JsonItems.beq : JsonItems → JsonItems → Bool
  | .nil, .nil => true
  | .cons a as, .cons b bs => Json.beq a b && JsonItems.beq as bs
  | _, _ => false

/-- Boolean structural equality on JSON object fields. -/
def JsonFields.beq : JsonFields → JsonFields → Bool
  | .nil, .nil => true
  | .cons k v t, .cons k' v' t' => k == k' && Json.beq v v' && JsonFields.beq t t'
  | _, _ => false

end

mutual

theorem Json.beqIffEq : ∀ a b : Json, Json.beq a b = true ↔ a = b
  | .null, .null => by simp [Json.beq]
  | .bool _, .bool _ => by simp [Json.beq]
  | .num _, .num _ => by simp [Json.beq]
  | .str _, .str _ => by simp [Json.beq]
  | .arr a, .arr b => by simp [Json.beq, JsonItems.beqIffEqItems a b]
  | .obj a, .obj b => by simp [Json.beq, JsonFields.beqIffEqFields a b]
  | .null, .bool _ | .null, .num _ | .null, .str _ | .null, .arr _ | .null, .obj _
  | .bool _, .null | .bool _, .num _ | .bool _, .str _ | .bool _, .arr _ | .bool _, .obj _
  | .num _, .null | .num _, .bool _ | .num _, .str _ | .num _, .arr _ | .num _, .obj _
  | .str _, .null | .str _, .bool _ | .str _, .num _ | .str _, .arr _ | .str _, .obj _
  | .arr _, .null | .arr _, .bool _ | .arr _, .num _ | .arr _, .str _ | .arr _, .obj _
  | .obj _, .null | .obj _, .bool _ | .obj _, .num _ | .obj _, .str _ | .obj _, .arr _ => by
      simp [Json.beq]

theorem JsonItems.beqIffEqItems : ∀ a b : JsonItems, JsonItems.beq a b = true ↔ a = b
  | .nil, .nil => by simp [JsonItems.beq]
  | .cons a as, .cons b bs => by
      simp [JsonItems.beq, Json.beqIffEq a b, JsonItems.beqIffEqItems as bs]
  | .nil, .cons _ _ | .cons _ _, .nil => by simp [JsonItems.beq]

theorem JsonFields.beqIffEqFields : ∀ a b : JsonFields, JsonFields.beq a b = true ↔ a = b
  | .nil, .nil => by simp [JsonFields.beq]
  | .cons k v t, .cons k' v' t' => by
      simp [JsonFields.beq, Json.beqIffEq v v', JsonFields.beqIffEqFields t t', and_assoc]
  | .nil, .cons _ _ _ | .cons _ _ _, .nil => by simp [JsonFields.beq]

end

instance : DecidableEq Json := fun a b =>
  decidable_of_iff (Json.beq a b = true) (Json.beqIffEq a b)

instance : DecidableEq JsonItems := fun a b =>
  decidable_of_iff (JsonItems.beq a b = true) (JsonItems.beqIffEqItems a b)

instance : DecidableEq JsonFields := fun a b =>
  decidable_of_iff (JsonFields.beq a b = true) (JsonFields.beqIffEqFields a b)

/-! ## The identifier normalizer, `_clean_schema_id`

Source (`src/shinto/jsonschema.py`, lines 329-334):
```
schema_id = re.sub(
    r"[^a-z0-9_]", "", schema_id.replace("/", "_").replace(".json", "").lower()
)
return re.sub(r"_+", "_", schema_id).strip("_")
```
-/

/-- `str.replace(".json", "")`: remove every (left-to-right, non-overlapping)
occurrence of the character sequence `.json`. -/
def removeDotJson : List Char → List Char
  | '.' :: 'j' :: 's' :: 'o' :: 'n' :: rest => removeDotJson rest
  | c :: rest => c :: removeDotJson rest
  | [] => []

/-- `re.sub(r"_+", "_", s)`: collapse each maximal run of underscores to a
single underscore. -/
def collapseUnderscores : List Char → List Char
  | [] => []
  | [c] => [c]
  | a :: b :: rest =>
    if a = '_' ∧ b = '_' then collapseUnderscores (b :: rest)
    else a :: collapseUnderscores (b :: rest)

/-- The underscore test used by `strip("_")` and `r"_+"`. -/
def isUnderscore (c : Char) : Bool :=
  c = '_'

/-- `s.strip("_")`: drop all leading and trailing underscores. -/
def stripUnderscores (l : List Char) : List Char :=
  ((l.dropWhile isUnderscore).reverse.dropWhile isUnderscore).reverse

/-- The character class `[a-z0-9_]` of `re.sub(r"[^a-z0-9_]", "", s)`, stated
on code points: `a`-`z` is 97-122, `0`-`9` is 48-57, `_` is 95. -/
def isAllowedChar (c : Char) : Bool :=
  (97 ≤ c.toNat && c.toNat ≤ 122) || (48 ≤ c.toNat && c.toNat ≤ 57) || c.toNat = 95

/-- The character pipeline of `_clean_schema_id`, in source order:
replace `/` by `_`, remove `.json`, lower, delete disallowed characters,
collapse underscore runs, strip outer underscores. -/
def cleanChars (l : List Char) : List Char :=
  stripUnderscores (collapseUnderscores
    (((removeDotJson (l.map fun c => if c = '/' then '_' else c)).map
        Char.toLower).filter isAllowedChar))

/-- `JsonSchemaRegistry._clean_schema_id`: clean a schema ID or convert a
schema filepath to a schema ID. -/
def cleanSchemaId (s : String) : String :=
  ⟨cleanChars s.toList⟩

example : cleanSchemaId "/path/to/My Schema.json" = "path_to_myschema" := by decide
example : cleanSchemaId "test_schema" = "test_schema" := by decide
example : cleanSchemaId "///" = "" := by decide

/-! ### Idempotence of the normalizer -/

/-- The no-two-adjacent-underscores relation produced by `re.sub(r"_+", "_")`. -/
def NoUU (l : List Char) : Prop :=
  List.Chain' (fun a b => a ≠ '_' ∨ b ≠ '_') l

theorem head?_dropWhile_false {α} (p : α → Bool) (l : List α) :
    ∀ c, (l.dropWhile p).head? = some c → p c = false := by
  induction l with
  | nil => simp
  | cons a t ih =>
      intro c hc
      rw [List.dropWhile_cons] at hc
      by_cases hp : p a = true
      · rw [if_pos hp] at hc
        exact ih c hc
      · rw [if_neg hp] at hc
        have hac : a = c := by simpa using hc
        subst hac
        simpa using hp

theorem dropWhile_eq_self_of_head {α} (p : α → Bool) (l : List α)
    (h : ∀ c, l.head? = some c → p c = false) : l.dropWhile p = l := by
  cases l with
  | nil => rfl
  | cons a t => simp [List.dropWhile_cons, h a rfl]

theorem getLast?_of_suffix {α} {w v : List α} (h : w <:+ v) (hw : w ≠ []) :
    w.getLast? = v.getLast? := by
  obtain ⟨pre, rfl⟩ := h
  induction pre with
  | nil => rfl
  | cons a pre ih =>
      rw [List.cons_append, List.getLast?_cons, ih]
      cases hpw : (pre ++ w).getLast? with
      | some c => rfl
      | none =>
          rw [List.getLast?_eq_none_iff] at hpw
          exact absurd (List.append_eq_nil.mp hpw).2 hw

theorem mem_collapseUnderscores {c : Char} : ∀ {l : List Char},
    c ∈ collapseUnderscores l → c ∈ l := by
  intro l
  induction l with
  | nil => simp [collapseUnderscores]
  | cons a t ih =>
      cases t with
      | nil => simp [collapseUnderscores]
      | cons b t' =>
          rw [collapseUnderscores]
          intro h
          by_cases hab : a = '_' ∧ b = '_'
          · simp only [if_pos hab] at h
            exact List.mem_cons_of_mem a (ih h)
          · simp only [if_neg hab] at h
            rcases List.mem_cons.mp h with h1 | h2
            · exact h1 ▸ List.mem_cons_self a _
            · exact List.mem_cons_of_mem a (ih h2)

theorem collapseUnderscores_head? : ∀ (x : Char) (t : List Char),
    (collapseUnderscores (x :: t)).head? = some x := by
  intro x t
  induction t generalizing x with
  | nil => rfl
  | cons b t' ih =>
      rw [collapseUnderscores]
      by_cases hab : x = '_' ∧ b = '_'
      · rw [if_pos hab, ih b, hab.1, hab.2]
      · rw [if_neg hab]
        rfl

theorem noUU_collapseUnderscores : ∀ l : List Char, NoUU (collapseUnderscores l) := by
  intro l
  induction l with
  | nil => simp [collapseUnderscores, NoUU]
  | cons a t ih =>
      cases t with
      | nil => simp [collapseUnderscores, NoUU]
      | cons b t' =>
          rw [collapseUnderscores]
          by_cases hab : a = '_' ∧ b = '_'
          · rw [if_pos hab]
            exact ih
          · rw [if_neg hab]
            refine List.chain'_cons'.mpr ⟨?_, ih⟩
            intro y hy
            rw [collapseUnderscores_head? b t'] at hy
            cases hy
            by_contra hcon
            push_neg at hcon
            exact hab ⟨hcon.1, hcon.2⟩

theorem collapseUnderscores_eq_self : ∀ {l : List Char}, NoUU l →
    collapseUnderscores l = l := by
  intro l
  induction l with
  | nil => intro _; rfl
  | cons a t ih =>
      cases t with
      | nil => intro _; rfl
      | cons b t' =>
          intro h
          rcases List.chain'_cons.mp h with ⟨hr, htail⟩
          rw [collapseUnderscores, if_neg (by tauto), ih htail]

theorem removeDotJson_eq_self : ∀ {l : List Char}, (∀ c ∈ l, c ≠ '.') →
    removeDotJson l = l := by
  intro l
  induction l with
  | nil => intro _; rfl
  | cons a t ih =>
      intro h
      have ha : a ≠ '.' := h a (List.mem_cons_self a t)
      have ht : ∀ c ∈ t, c ≠ '.' := fun c hc => h c (List.mem_cons_of_mem a hc)
      rw [removeDotJson.eq_def]
      split
      · next heq =>
          injection heq with h1 _
          exact absurd h1 ha
      · next =>
          rename_i c rest hg heq
          injection heq with h1 h2
          subst h1
          subst h2
          rw [ih ht]
      · next heq =>
          exact absurd heq (List.cons_ne_nil a t)

theorem toLower_eq_self_of_allowed {c : Char} (h : isAllowedChar c = true) :
    c.toLower = c := by
  have hn : ¬(c.toNat ≥ 65 ∧ c.toNat ≤ 90) := by
    simp only [isAllowedChar, Bool.or_eq_true, Bool.and_eq_true, decide_eq_true_eq] at h
    omega
  simp [Char.toLower, hn]

theorem allowed_ne_of_toNat {c : Char} (h : isAllowedChar c = true) {d : Char}
    (hd : d.toNat < 48 ∨ (58 ≤ d.toNat ∧ d.toNat ≤ 94) ∨ d.toNat = 96 ∨ 123 ≤ d.toNat) :
    c ≠ d := by
  intro hcd
  subst hcd
  simp only [isAllowedChar, Bool.or_eq_true, Bool.and_eq_true, decide_eq_true_eq] at h
  omega

theorem cleanChars_spec (l : List Char) :
    (∀ c ∈ cleanChars l, isAllowedChar c = true) ∧ NoUU (cleanChars l) ∧
      (∀ c, (cleanChars l).head? = some c → isUnderscore c = false) ∧
      (∀ c, (cleanChars l).reverse.head? = some c → isUnderscore c = false) := by
  unfold cleanChars stripUnderscores
  set l4 := ((removeDotJson (l.map fun c => if c = '/' then '_' else c)).map
      Char.toLower).filter isAllowedChar with hl4
  set m := collapseUnderscores l4 with hm
  set u := m.dropWhile isUnderscore with hu
  set w := u.reverse.dropWhile isUnderscore with hw
  have hall : ∀ c ∈ w.reverse, isAllowedChar c = true := by
    intro c hc
    rw [List.mem_reverse] at hc
    have h1 : c ∈ u.reverse := (List.dropWhile_suffix isUnderscore).subset hc
    rw [List.mem_reverse] at h1
    have h2 : c ∈ m := (List.dropWhile_suffix isUnderscore).subset h1
    have h3 : c ∈ l4 := mem_collapseUnderscores h2
    exact (List.mem_filter.mp h3).2
  refine ⟨hall, ?_, ?_, ?_⟩
  · have h1 : NoUU m := noUU_collapseUnderscores l4
    have h2 : NoUU u := h1.suffix (List.dropWhile_suffix isUnderscore)
    have h3 : NoUU u.reverse := by
      rw [NoUU, List.chain'_reverse]
      exact h2.imp fun a b hab => by tauto
    have h4 : NoUU w := h3.suffix (List.dropWhile_suffix isUnderscore)
    rw [NoUU, List.chain'_reverse]
    exact h4.imp fun a b hab => by tauto
  · intro c hc
    rw [List.head?_reverse] at hc
    have hwne : w ≠ [] := by intro h0; rw [h0] at hc; simp at hc
    rw [getLast?_of_suffix (List.dropWhile_suffix isUnderscore) hwne,
      List.getLast?_reverse] at hc
    exact head?_dropWhile_false isUnderscore m c hc
  · intro c hc
    rw [List.reverse_reverse] at hc
    exact head?_dropWhile_false isUnderscore u.reverse c hc

theorem cleanChars_idem (l : List Char) : cleanChars (cleanChars l) = cleanChars l := by
  obtain ⟨hall, hnuu, hhead, hlast⟩ := cleanChars_spec l
  set r := cleanChars l with hr
  have h1 : r.map (fun c => if c = '/' then '_' else c) = r := by
    rw [List.map_congr_left (g := id) ?_, List.map_id]
    intro a ha
    have : a ≠ '/' := allowed_ne_of_toNat (hall a ha) (by left; decide)
    simp [this]
  have h2 : removeDotJson r = r :=
    removeDotJson_eq_self fun c hc =>
      allowed_ne_of_toNat (hall c hc) (by left; decide)
  have h3 : r.map Char.toLower = r := by
    rw [List.map_congr_left (g := id) ?_, List.map_id]
    intro a ha
    exact toLower_eq_self_of_allowed (hall a ha)
  have h4 : r.filter isAllowedChar = r := List.filter_eq_self.mpr hall
  have h5 : collapseUnderscores r = r := collapseUnderscores_eq_self hnuu
  have h6 : stripUnderscores r = r := by
    unfold stripUnderscores
    rw [dropWhile_eq_self_of_head isUnderscore r hhead,
      dropWhile_eq_self_of_head isUnderscore r.reverse hlast, List.reverse_reverse]
  show cleanChars r = r
  unfold cleanChars
  rw [h1, h2, h3, h4, h5, h6]

theorem cleanSchemaId_idem (s : String) :
    cleanSchemaId (cleanSchemaId s) = cleanSchemaId s := by
  show (⟨cleanChars (String.toList ⟨cleanChars s.toList⟩)⟩ : String) = ⟨cleanChars s.toList⟩
  rw [show String.toList ⟨cleanChars s.toList⟩ = cleanChars s.toList from rfl,
    cleanChars_idem]

/-- C6: identifier normalization (`_clean_schema_id`) is a deterministic,
idempotent function: for every string `s`,
`normalize(normalize(s)) = normalize(s)`; in particular normalizing an
already-normalized identifier (any value in the image of the normalizer)
returns it unchanged.  Determinism is by construction: the normalizer is
embedded as a pure function of its argument. -/
theorem C6_clean_schema_id_idempotent :
    ∀ s : String, cleanSchemaId (cleanSchemaId s) = cleanSchemaId s := by
  intro s
  exact cleanSchemaId_idem s

/-! ## JSON object access (Python dict semantics)

`d[k]`, `d.get(k)`, `d[k] = v` on insertion-ordered dicts with unique keys:
lookup returns the bound value, assignment replaces the value in place when
the key exists and appends the binding otherwise. -/

/-- Dict lookup on object fields. -/
def JsonFields.get : JsonFields → String → Option Json
  | .nil, _ => none
  | .cons k v t, key => if k = key then some v else JsonFields.get t key

/-- Dict assignment on object fields. -/
def JsonFields.set : JsonFields → String → Json → JsonFields
  | .nil, key, v => .cons key v .nil
  | .cons k w t, key, v =>
    if k = key then .cons key v t else .cons k w (JsonFields.set t key v)

/-- `schema.get(key)`: `none` when the document is not an object or lacks
the key. -/
def Json.getField : Json → String → Option Json
  | .obj fs, key => fs.get key
  | _, _ => none

/-- `schema[key] = v` (only ever applied to object documents). -/
def Json.setField : Json → String → Json → Json
  | .obj fs, key, v => .obj (fs.set key v)
  | j, _, _ => j

/-- Python truthiness of a JSON value (`not schema.get("$id")` in
`_register_schema` tests falsiness: absent, `None`, `False`, `0`, `""`,
`[]`, `{}`). -/
def Json.falsy : Json → Bool
  | .null => true
  | .bool b => !b
  | .num n => n == 0
  | .str s => s == ""
  | .arr .nil => true
  | .arr _ => false
  | .obj .nil => true
  | .obj _ => false

/-! ## Registry state

`JsonSchemaRegistry` holds `_registry` (the `referencing.Registry`: canonical
identifier → schema document), `_schema_mappings` (resolved source filepath →
canonical identifier) and `_validator_cache` (identifier → compiled
`Draft7Validator`).  All three are modelled as insertion-ordered association
lists. -/

/-- One segment of a `jsonschema` validation-error path: a property name or
an array index. -/
inductive PathSeg where
  | prop (s : String) : PathSeg
  | idx (n : Nat) : PathSeg
  deriving DecidableEq

/-- A `jsonschema.exceptions.ValidationError`, reduced to the two attributes
the registry code reads: `error.path` and `error.message`. -/
structure VError where
  path : List PathSeg
  message : String
  deriving DecidableEq

/-- A compiled `Draft7Validator`: it is bound to one schema document and to
the whole registry contents at construction time (`registry=self._registry`),
which is its reference-resolution context. -/
structure Validator where
  schema : Json
  snapshot : List (String × Json)
  deriving DecidableEq

/-- The mutable state of a `JsonSchemaRegistry` instance. -/
structure RegState where
  registry : List (String × Json)
  mappings : List (String × String)
  validatorCache : List (String × Validator)
  deriving DecidableEq

/-- Association-list lookup (leftmost binding). -/
def getA {β : Type} : List (String × β) → String → Option β
  | [], _ => none
  | (k, v) :: t, key => if k = key then some v else getA t key

/-- Association-list store: replace in place, else append. -/
def setA {β : Type} : List (String × β) → String → β → List (String × β)
  | [], key, v => [(key, v)]
  | (k, w) :: t, key, v =>
    if k = key then (key, v) :: t else (k, w) :: setA t key v

/-- Python exceptions raised by the registry code.  `noSuchResource` is the
`referencing.exceptions.NoSuchResource` raised by `Registry.contents` on an
unknown URI. -/
inductive PyErr where
  | valueError (msg : String) : PyErr
  | keyError (msg : String) : PyErr
  | fileNotFoundError (path : String) : PyErr
  | noSuchResource (uri : String) : PyErr
  | attributeError (msg : String) : PyErr
  | validationError (e : VError) : PyErr
  deriving DecidableEq

/-- Result of a registry operation: either a value with the state after the
call, or a raised exception with the state at the moment of the raise. -/
abbrev PyResult (α : Type) := Except (PyErr × RegState) (α × RegState)

/-- `schema_registered`: is this (resolved) filepath a key of
`_schema_mappings`? -/
def schemaRegistered (st : RegState) (fp : String) : Bool :=
  (getA st.mappings fp).isSome

/-- `schema_id_in_registry`: is the cleaned ID a key of `_registry`? -/
def schemaIdInRegistry (st : RegState) (sid : String) : Bool :=
  (getA st.registry (cleanSchemaId sid)).isSome

/-- `get_schema_id`: filepath → identifier lookup. -/
def getSchemaId (st : RegState) (fp : String) : Option String :=
  getA st.mappings fp

/-- `next_filepath_for_schema_id`: first filepath mapped to the (cleaned)
identifier, in insertion order. -/
def nextFilepathForSchemaId (st : RegState) (sid : String) : Option String :=
  (st.mappings.find? (fun p => p.2 = cleanSchemaId sid)).map (fun p => p.1)

/-- `contents` / `get_schema`: stored document for a (cleaned) identifier;
`none` models the raise of the underlying `Registry.contents`. -/
def contents (st : RegState) (sid : String) : Option Json :=
  getA st.registry (cleanSchemaId sid)

/-! ## The reference walker (`_resolve_schema_refs` / `_resolve_ref`) -/

/-- The `convert_to` argument.  Its annotation is
`Literal["id", "filepath"]`, but `_register_schema` actually passes the
Python literal `True` (line 215), which compares unequal to both strings;
`pyTrue` models that value faithfully. -/
inductive ConvertTo where
  | toId : ConvertTo
  | toFilepath : ConvertTo
  | pyTrue : ConvertTo
  deriving DecidableEq

/-- `ref.split("#", 1)[0]`: the part before the first `#`. -/
def refPrefix (ref : String) : String :=
  ⟨ref.toList.takeWhile (fun c => c ≠ '#')⟩

/-- `f"#{ref.split('#', 1)[1]}"` when a `#` is present, else `""`: the part
of the reference from the first `#` (inclusive) to the end. -/
def refFragment (ref : String) : String :=
  ⟨ref.toList.dropWhile (fun c => c ≠ '#')⟩

/-- `value.startswith("#")`. -/
def startsWithHash (s : String) : Bool :=
  match s.toList with
  | c :: _ => c = '#'
  | _ => false

/-- `_resolve_ref`: resolve one non-local reference value to ID form or
filepath form; unresolvable prefixes (and the `pyTrue` mode, which matches
neither string literal) leave the reference unchanged.
`str(Path(ref_identifier).resolve())` is the identity on abstract resolved
paths. -/
def resolveRef (st : RegState) (ref : String) (c : ConvertTo) : String :=
  if schemaRegistered st (refPrefix ref) then
    match c with
    | .toId => ((getA st.mappings (refPrefix ref)).getD "") ++ refFragment ref
    | .toFilepath => refPrefix ref ++ refFragment ref
    | .pyTrue => ref
  else if schemaIdInRegistry st (refPrefix ref) then
    match c with
    | .toId => cleanSchemaId (refPrefix ref) ++ refFragment ref
    | .toFilepath =>
        match nextFilepathForSchemaId st (refPrefix ref) with
        | some fp => fp ++ refFragment ref
        | none => ref
    | .pyTrue => ref
  else ref

mutual

/-- `_resolve_schema_refs`: rebuild a schema document, rewriting every
non-local `$ref` string via `_resolve_ref`.  The source iterates
`schema.items()` and is only ever called on dict documents; non-dict
arguments are returned unchanged here. -/
def resolveSchemaRefs (st : RegState) (c : ConvertTo) : Json → Json
  | .obj fs => .obj (resolveSchemaRefsFields st c fs)
  | j => j

/-- The `for key, value in schema.items()` loop of `_resolve_schema_refs`. -/
def resolveSchemaRefsFields (st : RegState) (c : ConvertTo) : JsonFields → JsonFields
  | .nil => .nil
  | .cons k v t =>
    .cons k (resolveSchemaRefsValue st c k v) (resolveSchemaRefsFields st c t)

/-- One `key, value` step of the loop: dict values recurse, list values map
over dict items, a non-local string under the key `$ref` is resolved, and
everything else is copied. -/
def resolveSchemaRefsValue (st : RegState) (c : ConvertTo) (k : String) : Json → Json
  | .obj fs => .obj (resolveSchemaRefsFields st c fs)
  | .arr xs => .arr (resolveSchemaRefsItems st c xs)
  | .str s =>
    if k = "$ref" ∧ startsWithHash s = false then .str (resolveRef st s c)
    else .str s
  | v => v

/-- The list comprehension of `_resolve_schema_refs`: only dict items are
recursed into; other items are kept as they are. -/
def resolveSchemaRefsItems (st : RegState) (c : ConvertTo) : JsonItems → JsonItems
  | .nil => .nil
  | .cons x t => .cons (resolveSchemaRefsItem st c x) (resolveSchemaRefsItems st c t)

/-- One item of the list comprehension. -/
def resolveSchemaRefsItem (st : RegState) (c : ConvertTo) : Json → Json
  | .obj fs => .obj (resolveSchemaRefsFields st c fs)
  | x => x

end

/-! ## Registration (`register_schema` / `_register_schema`) -/

/-- `_register_schema`: require a truthy `$id`, clean it, then either detect
an idempotent re-registration / conflict, or insert the document and clear
the validator cache.  The content comparison re-resolves references with the
Python literal `True` as `convert_to` (source line 213-216). -/
def registerSchemaInner (st : RegState) (schema : Json) : PyResult String :=
  match schema.getField "$id" with
  | none => .error (.valueError "Schema must have a $id.", st)
  | some idv =>
    if idv.falsy then .error (.valueError "Schema must have a $id.", st)
    else
      match idv with
      | .str s =>
        if schemaIdInRegistry st (cleanSchemaId s) then
          if (contents st (cleanSchemaId s)).getD .null ≠ schema ∧
              resolveSchemaRefs st .pyTrue
                  ((contents st (cleanSchemaId s)).getD .null) ≠
                resolveSchemaRefs st .pyTrue schema then
            .error (.keyError ("Schema '" ++ cleanSchemaId s ++
              "' already registered with different contents."), st)
          else
            .ok (cleanSchemaId s, st)
        else
          .ok (cleanSchemaId s,
            { st with
              registry := setA st.registry (cleanSchemaId s) schema
              validatorCache := [] })
      | _ => .error (.attributeError "replace", st)

/-- The dict branch of `register_schema`: delegate to `_register_schema`. -/
def registerSchemaDoc (st : RegState) (schema : Json) : PyResult String :=
  registerSchemaInner st schema

/-- Shared tail of the filepath branch of `register_schema`:
`schema["$id"] = cleaned`, then `_register_schema`, then
`self._schema_mappings[schema_filepath] = schema_id`. -/
def registerSchemaFileStep (st : RegState) (doc : Json) (schemaFilepath : String)
    (cleanedId : String) : PyResult String :=
  match registerSchemaInner st (doc.setField "$id" (.str cleanedId)) with
  | .error e => .error e
  | .ok (schemaId, st') =>
    .ok (schemaId, { st' with mappings := setA st'.mappings schemaFilepath schemaId })

/-- The filepath branch of `register_schema`: read and parse the file
(modelled by the map `fs` over already-resolved paths), overwrite `$id`
with the cleaned declared ID (defaulting to the resolved filepath when no
`$id` is declared), register, then record the filepath → ID mapping.
A non-string declared `$id` would crash `_clean_schema_id`
(`AttributeError`), as would a non-dict top-level document. -/
def registerSchemaFile (fs : String → Option Json) (st : RegState)
    (schemaFilepath : String) : PyResult String :=
  match fs schemaFilepath with
  | none => .error (.fileNotFoundError schemaFilepath, st)
  | some doc =>
    match doc with
    | .obj _ =>
      match doc.getField "$id" with
      | some (.str s) =>
        registerSchemaFileStep st doc schemaFilepath (cleanSchemaId s)
      | some _ => .error (.attributeError "replace", st)
      | none =>
        registerSchemaFileStep st doc schemaFilepath (cleanSchemaId schemaFilepath)
    | _ => .error (.attributeError "get", st)

/-! ### Basic lemmas about the state operations -/

instance {ε α : Type} [DecidableEq ε] [DecidableEq α] : DecidableEq (Except ε α) :=
  fun x y =>
    match x, y with
    | .ok a, .ok b =>
        if h : a = b then isTrue (by rw [h])
        else isFalse (by intro hh; cases hh; exact h rfl)
    | .error a, .error b =>
        if h : a = b then isTrue (by rw [h])
        else isFalse (by intro hh; cases hh; exact h rfl)
    | .ok _, .error _ => isFalse (by intro hh; cases hh)
    | .error _, .ok _ => isFalse (by intro hh; cases hh)

theorem getA_setA_self {β : Type} (l : List (String × β)) (k : String) (v : β) :
    getA (setA l k v) k = some v := by
  induction l with
  | nil => simp [setA, getA]
  | cons p t ih =>
      by_cases hk : p.1 = k
      · simp [setA, hk, getA]
      · simp [setA, hk, getA, ih]

theorem getA_setA_ne {β : Type} (l : List (String × β)) (k k' : String) (v : β)
    (h : k' ≠ k) : getA (setA l k v) k' = getA l k' := by
  have hkk : k ≠ k' := fun hh => h hh.symm
  induction l with
  | nil => simp [setA, getA, hkk]
  | cons p t ih =>
      by_cases hk : p.1 = k
      · rw [setA, if_pos hk, getA, if_neg hkk, getA, hk, if_neg hkk]
      · rw [setA, if_neg hk, getA, getA]
        by_cases hk' : p.1 = k'
        · rw [if_pos hk', if_pos hk']
        · rw [if_neg hk', if_neg hk', ih]

theorem setA_setA_self {β : Type} (l : List (String × β)) (k : String) (v w : β) :
    setA (setA l k v) k w = setA l k w := by
  induction l with
  | nil => simp [setA]
  | cons p t ih =>
      by_cases hk : p.1 = k
      · simp [setA, hk]
      · simp [setA, hk, ih]

theorem JsonFields.get_set_self :
    ∀ (fs : JsonFields) (k : String) (v : Json), (fs.set k v).get k = some v
  | .nil, k, v => by simp [JsonFields.set, JsonFields.get]
  | .cons k' w t, k, v => by
      by_cases hk : k' = k
      · simp [JsonFields.set, hk, JsonFields.get]
      · simp [JsonFields.set, hk, JsonFields.get, JsonFields.get_set_self t k v]

theorem Json.getField_setField_obj (fs : JsonFields) (k : String) (v : Json) :
    ((Json.obj fs).setField k v).getField k = some v := by
  simp [Json.setField, Json.getField, JsonFields.get_set_self]

theorem resolveRef_pyTrue (st : RegState) (r : String) :
    resolveRef st r .pyTrue = r := by
  unfold resolveRef
  dsimp only
  split
  · rfl
  · split
    · rfl
    · rfl

mutual

theorem resolveSchemaRefs_pyTrue (st : RegState) :
    ∀ j : Json, resolveSchemaRefs st .pyTrue j = j
  | .null => rfl
  | .bool _ => rfl
  | .num _ => rfl
  | .str _ => rfl
  | .arr _ => rfl
  | .obj fs => congrArg Json.obj (resolveSchemaRefsFields_pyTrue st fs)

theorem resolveSchemaRefsFields_pyTrue (st : RegState) :
    ∀ fs : JsonFields, resolveSchemaRefsFields st .pyTrue fs = fs
  | .nil => rfl
  | .cons k v t => by
      show JsonFields.cons k (resolveSchemaRefsValue st .pyTrue k v)
          (resolveSchemaRefsFields st .pyTrue t) = JsonFields.cons k v t
      rw [resolveSchemaRefsValue_pyTrue st k v, resolveSchemaRefsFields_pyTrue st t]

theorem resolveSchemaRefsValue_pyTrue (st : RegState) (k : String) :
    ∀ v : Json, resolveSchemaRefsValue st .pyTrue k v = v
  | .null => rfl
  | .bool _ => rfl
  | .num _ => rfl
  | .str s => by
      show (if k = "$ref" ∧ startsWithHash s = false
          then Json.str (resolveRef st s .pyTrue) else Json.str s) = Json.str s
      rw [resolveRef_pyTrue st s, ite_self]
  | .arr xs => congrArg Json.arr (resolveSchemaRefsItems_pyTrue st xs)
  | .obj fs => congrArg Json.obj (resolveSchemaRefsFields_pyTrue st fs)

theorem resolveSchemaRefsItems_pyTrue (st : RegState) :
    ∀ xs : JsonItems, resolveSchemaRefsItems st .pyTrue xs = xs
  | .nil => rfl
  | .cons x t => by
      show JsonItems.cons (resolveSchemaRefsItem st .pyTrue x)
          (resolveSchemaRefsItems st .pyTrue t) = JsonItems.cons x t
      rw [resolveSchemaRefsItem_pyTrue st x, resolveSchemaRefsItems_pyTrue st t]

theorem resolveSchemaRefsItem_pyTrue (st : RegState) :
    ∀ x : Json, resolveSchemaRefsItem st .pyTrue x = x
  | .null => rfl
  | .bool _ => rfl
  | .num _ => rfl
  | .str _ => rfl
  | .arr _ => rfl
  | .obj fs => congrArg Json.obj (resolveSchemaRefsFields_pyTrue st fs)

end

/-! ### Characterizations of `_register_schema` -/

theorem registerInner_error_atomic {st : RegState} {doc : Json} {e : PyErr}
    {st' : RegState} (h : registerSchemaInner st doc = .error (e, st')) :
    st' = st := by
  unfold registerSchemaInner at h
  repeat' split at h
  all_goals
    first
    | exact Except.noConfusion h
    | (simp only [Except.error.injEq, Prod.mk.injEq] at h; exact h.2.symm)

theorem registerInner_ok_cases {st : RegState} {doc : Json} {i : String}
    {st' : RegState} (h : registerSchemaInner st doc = .ok (i, st')) :
    ∃ s, doc.getField "$id" = some (.str s) ∧ s ≠ "" ∧ i = cleanSchemaId s ∧
      ((getA st.registry i = some doc ∧ st' = st) ∨
        (getA st.registry i = none ∧
          st' = { st with registry := setA st.registry i doc, validatorCache := [] })) := by
  unfold registerSchemaInner at h
  split at h
  · exact Except.noConfusion h
  · next idv heq =>
    split at h
    · exact Except.noConfusion h
    · next hfalsy =>
      split at h
      · next s =>
        have hs : s ≠ "" := by
          intro hs0
          subst hs0
          simp [Json.falsy] at hfalsy
        have hid : cleanSchemaId (cleanSchemaId s) = cleanSchemaId s :=
          cleanSchemaId_idem s
        refine ⟨s, heq, hs, ?_⟩
        split at h
        · next hin =>
          split at h
          · exact Except.noConfusion h
          · next hcond =>
            simp only [Except.ok.injEq, Prod.mk.injEq] at h
            obtain ⟨hi, hst⟩ := h
            refine ⟨hi.symm, Or.inl ⟨?_, hst.symm⟩⟩
            rw [not_and_or] at hcond
            unfold schemaIdInRegistry at hin
            rw [hid] at hin
            obtain ⟨stored, hstored⟩ := Option.isSome_iff_exists.mp hin
            have hcont : (contents st (cleanSchemaId s)).getD .null = stored := by
              unfold contents
              rw [hid, hstored]
              rfl
            have hdoc : stored = doc := by
              rcases hcond with hc | hc
              · rw [hcont] at hc
                simpa using hc
              · rw [hcont] at hc
                rw [resolveSchemaRefs_pyTrue st stored,
                  resolveSchemaRefs_pyTrue st doc] at hc
                simpa using hc
            rw [← hi, hstored, hdoc]
        · next hin =>
          simp only [Except.ok.injEq, Prod.mk.injEq] at h
          obtain ⟨hi, hst⟩ := h
          refine ⟨hi.symm, Or.inr ⟨?_, ?_⟩⟩
          · unfold schemaIdInRegistry at hin
            rw [hid] at hin
            rw [← hi]
            exact Option.not_isSome_iff_eq_none.mp hin
          · rw [← hst, ← hi]
      · exact Except.noConfusion h

theorem registerInner_stored_eq {st : RegState} {doc : Json} {s : String}
    (hf : doc.getField "$id" = some (.str s)) (hs : s ≠ "")
    (hst : getA st.registry (cleanSchemaId s) = some doc) :
    registerSchemaInner st doc = .ok (cleanSchemaId s, st) := by
  have hfalsy : (Json.str s).falsy = false := by simp [Json.falsy, hs]
  have hin : schemaIdInRegistry st (cleanSchemaId s) = true := by
    unfold schemaIdInRegistry
    rw [cleanSchemaId_idem, hst]
    rfl
  have hcont : contents st (cleanSchemaId s) = some doc := by
    unfold contents
    rw [cleanSchemaId_idem]
    exact hst
  unfold registerSchemaInner
  rw [hf]
  simp [hfalsy, hin, hcont]

/-- C9: registration is atomic on error.  If `register_schema` raises — via
either entry form (in-memory document or filepath) and for any of the raised
exceptions (missing `$id`, conflict, missing file, non-string `$id`) — then
the registry state (identifier → document store, filepath → identifier
mapping, validator cache) is exactly the state before the call. -/
theorem C9_register_error_atomic (st : RegState) (doc : Json)
    (fs : String → Option Json) (fp : String) (e : PyErr) (st' : RegState) :
    (registerSchemaDoc st doc = .error (e, st') → st' = st) ∧
    (registerSchemaFile fs st fp = .error (e, st') → st' = st) := by
  constructor
  · intro h
    exact registerInner_error_atomic h
  · intro h
    unfold registerSchemaFile registerSchemaFileStep at h
    repeat' split at h
    all_goals
      first
      | exact Except.noConfusion h
      | (simp only [Except.error.injEq, Prod.mk.injEq] at h; exact h.2.symm)
      | (rename_i heqInner
         simp only [Except.error.injEq] at h
         subst h
         exact registerInner_error_atomic heqInner)

/-- A concrete empty registry instance (`JsonSchemaRegistry()`). -/
def regStateEmpty : RegState :=
  { registry := [], mappings := [], validatorCache := [] }

/-- C9 witness: registering a document without `$id` on the empty registry
raises and leaves the state unchanged. -/
theorem C9_register_error_atomic_witness : regStateEmpty = regStateEmpty :=
  (C9_register_error_atomic regStateEmpty (Json.obj .nil) (fun _ => none) "p"
    (.valueError "Schema must have a $id.") regStateEmpty).1 (by decide)

theorem registerFileStep_idem {st st' : RegState} {doc : Json} {i : String}
    {fp cid : String}
    (h : registerSchemaFileStep st doc fp cid = .ok (i, st')) :
    registerSchemaFileStep st' doc fp cid = .ok (i, st') := by
  unfold registerSchemaFileStep at h ⊢
  split at h
  · exact Except.noConfusion h
  · next sid st1 hinner =>
    simp only [Except.ok.injEq, Prod.mk.injEq] at h
    obtain ⟨hi, hst'⟩ := h
    obtain ⟨s, hf, hs, hsid, hcase⟩ := registerInner_ok_cases hinner
    have hreg : getA st'.registry (cleanSchemaId s) = some (doc.setField "$id" (.str cid)) := by
      rw [← hst']
      show getA st1.registry (cleanSchemaId s) = _
      rcases hcase with ⟨hg, rfl⟩ | ⟨hg, rfl⟩
      · rw [← hsid]
        exact hg
      · show getA (setA st.registry sid _) (cleanSchemaId s) = _
        rw [← hsid]
        exact getA_setA_self st.registry sid _
    have hinner' : registerSchemaInner st' (doc.setField "$id" (.str cid)) =
        .ok (cleanSchemaId s, st') := registerInner_stored_eq hf hs hreg
    rw [hinner']
    have hmap : setA st'.mappings fp (cleanSchemaId s) = st'.mappings := by
      rw [← hst', ← hsid]
      show setA (setA st1.mappings fp sid) fp sid = setA st1.mappings fp sid
      exact setA_setA_self st1.mappings fp sid sid
    rw [← hsid, ← hi]
    show Except.ok (sid, { st' with mappings := setA st'.mappings fp sid }) =
      Except.ok (sid, st')
    rw [hsid, hmap]

/-- C7: registration is idempotent.  If a `register_schema` call succeeded —
for an in-memory document, or for a filepath whose file content is unchanged
— then repeating the same call returns the same canonical identifier, raises
no conflict, and returns the state of the first call unchanged (identifier →
document store, filepath → identifier mapping and validator cache all
unmodified by the second call). -/
theorem C7_register_idempotent (st st' : RegState) (doc : Json) (i : String)
    (fs : String → Option Json) (fp : String) :
    (registerSchemaDoc st doc = .ok (i, st') →
      registerSchemaDoc st' doc = .ok (i, st')) ∧
    (registerSchemaFile fs st fp = .ok (i, st') →
      registerSchemaFile fs st' fp = .ok (i, st')) := by
  constructor
  · intro h
    obtain ⟨s, hf, hs, hi, hcase⟩ := registerInner_ok_cases h
    have hst : getA st'.registry (cleanSchemaId s) = some doc := by
      rcases hcase with ⟨hg, rfl⟩ | ⟨hg, rfl⟩
      · rw [← hi]
        exact hg
      · show getA (setA st.registry i doc) (cleanSchemaId s) = some doc
        rw [← hi]
        exact getA_setA_self st.registry i doc
    show registerSchemaInner st' doc = .ok (i, st')
    rw [hi]
    exact registerInner_stored_eq hf hs hst
  · intro h
    unfold registerSchemaFile at h ⊢
    split at h
    · exact Except.noConfusion h
    · next doc0 hfs =>
      split at h
      · next fds hobj =>
        split at h
        · exact registerFileStep_idem h
        · exact Except.noConfusion h
        · exact registerFileStep_idem h
      · exact Except.noConfusion h

/-- Concrete document `{"$id": "x"}`. -/
def docX : Json := .obj (.cons "$id" (.str "x") .nil)

/-- The registry after registering `docX` on the empty registry. -/
def regStateX : RegState :=
  { registry := [("x", docX)], mappings := [], validatorCache := [] }

/-- C7 witness: registering `{"$id": "x"}` twice on the empty registry
succeeds both times with identifier `x` and identical final state. -/
theorem C7_register_idempotent_witness :
    registerSchemaDoc regStateX docX = .ok ("x", regStateX) :=
  (C7_register_idempotent regStateEmpty regStateX docX "x" (fun _ => none) "p").1
    (by decide)

/-! ### C1: the conflict check never normalizes references

`_register_schema` passes the Python literal `True` as `convert_to`
(line 215), so `_resolve_schema_refs(..., True)` leaves every reference
unchanged (`resolveSchemaRefs_pyTrue`), the second disjunct of the content
comparison is dead code, and two structurally-equal schemas whose references
differ only as path form versus identifier form raise a spurious conflict —
contradicting the spec and the declared `Literal["id", "filepath"]` type of
`convert_to` (the intended call is `_resolve_schema_refs(..., "id")`). -/

/-- Concrete child schema declaring `$id` `child_schema`. -/
def childSchemaDoc : Json :=
  .obj (.cons "$id" (.str "child_schema") (.cons "type" (.str "object") .nil))

/-- A file system holding the child schema at `/child_schema.json`. -/
def fsChild : String → Option Json :=
  fun p => if p = "/child_schema.json" then some childSchemaDoc else none

/-- Parent schema whose cross-schema reference is in path form. -/
def parentPathForm : Json :=
  .obj (.cons "$id" (.str "parent_schema")
    (.cons "properties" (.obj (.cons "child"
      (.obj (.cons "$ref" (.str "/child_schema.json") .nil)) .nil)) .nil))

/-- The same parent schema with the reference in identifier form. -/
def parentIdForm : Json :=
  .obj (.cons "$id" (.str "parent_schema")
    (.cons "properties" (.obj (.cons "child"
      (.obj (.cons "$ref" (.str "child_schema") .nil)) .nil)) .nil))

/-- Registry after registering the child schema from its filepath. -/
def regStateChild : RegState :=
  { registry := [("child_schema", childSchemaDoc)]
    mappings := [("/child_schema.json", "child_schema")]
    validatorCache := [] }

/-- Registry after additionally registering the path-form parent document. -/
def regStateFull : RegState :=
  { registry := [("child_schema", childSchemaDoc), ("parent_schema", parentPathForm)]
    mappings := [("/child_schema.json", "child_schema")]
    validatorCache := [] }

/-- C1 (code bug): re-registering a parent document that is structurally
equal to the stored one up to reference normalization (both normalize to
`parentIdForm` under the real identifier-form rewrite) raises a conflict
`KeyError` instead of succeeding as a no-op, because `_register_schema`
compares with `convert_to=True` — which normalizes nothing (last conjunct
states the general no-op fact).  The spec requires such a re-registration to
be accepted. -/
theorem C1_conflict_check_ignores_ref_normalization :
    registerSchemaFile fsChild regStateEmpty "/child_schema.json" =
      .ok ("child_schema", regStateChild) ∧
    registerSchemaDoc regStateChild parentPathForm =
      .ok ("parent_schema", regStateFull) ∧
    resolveSchemaRefs regStateFull .toId parentPathForm = parentIdForm ∧
    resolveSchemaRefs regStateFull .toId parentIdForm = parentIdForm ∧
    registerSchemaDoc regStateFull parentIdForm =
      .error (.keyError
        "Schema 'parent_schema' already registered with different contents.",
        regStateFull) ∧
    (∀ (st : RegState) (j : Json), resolveSchemaRefs st .pyTrue j = j) := by
  refine ⟨by decide, by decide, by decide, by decide, by decide, ?_⟩
  intro st j
  exact resolveSchemaRefs_pyTrue st j

/-! ### C10: the missing-identifier check -/

/-- Concrete document `{"$id": "///"}` whose `$id` normalizes to `""`. -/
def slashDoc : Json := .obj (.cons "$id" (.str "///") .nil)

/-- A file system holding `slashDoc` at `/s.json`. -/
def fsSlash : String → Option Json :=
  fun p => if p = "/s.json" then some slashDoc else none

/-- C10 counterexample: registering `/s.json`, whose document declares the
non-empty raw `$id` `"///"`, raises the missing-identifier `ValueError` —
because the filepath branch of `register_schema` normalizes `$id` *before*
`_register_schema` runs its falsiness check.  This refutes the claim that
the error is raised only when the raw declared `$id` is absent or empty, and
that such a document is always accepted and stored under `""`. -/
theorem C10_counterexample :
    slashDoc.getField "$id" = some (.str "///") ∧ ("///" : String) ≠ "" ∧
    registerSchemaFile fsSlash regStateEmpty "/s.json" =
      .error (.valueError "Schema must have a $id.", regStateEmpty) := by
  refine ⟨by decide, by decide, by decide⟩

/-! ## The modelled validator (`jsonschema.Draft7Validator`)

The validator itself is an external collaborator (the `jsonschema` library);
the registry only builds it (bound to a schema and to the registry contents)
and consumes `validate` / `iter_errors`.  The structural checker below is
modelled from the spec (§3 "Validator", §4.4, §4.5): it covers the keywords
the claims and the repository's own tests exercise — `type`, `enum`,
`properties`, and single-schema `items` — producing one failure record per
violated keyword, carrying the relative instance path (`error.path`, with
integer segments for array indices) and a human-readable `error.message`
(distinct messages for distinct keywords, as in the real library).
`$ref` following inside validation is not modelled; no claim depends on it. -/

/-- The `type` keyword test of the modelled validator. -/
def typeMatches (t : String) (d : Json) : Bool :=
  if t = "object" then (match d with | .obj _ => true | _ => false)
  else if t = "array" then (match d with | .arr _ => true | _ => false)
  else if t = "string" then (match d with | .str _ => true | _ => false)
  else if t = "integer" ∨ t = "number" then (match d with | .num _ => true | _ => false)
  else if t = "boolean" then (match d with | .bool _ => true | _ => false)
  else if t = "null" then (match d with | .null => true | _ => false)
  else false

/-- Membership of a value in a JSON array (for `enum`). -/
def JsonItems.containsVal : JsonItems → Json → Bool
  | .nil, _ => false
  | .cons x t, v => if x = v then true else JsonItems.containsVal t v

/-- Prepend a path segment to a failure record (errors bubbling out of a
subschema gain the property name / index they were found under). -/
def VError.prefixSeg (s : PathSeg) (e : VError) : VError :=
  ⟨s :: e.path, e.message⟩

/-- Errors of the `type` keyword (modelled from the spec). -/
def typeErrors (tv : Json) (d : Json) : List VError :=
  match tv with
  | .str t => if typeMatches t d then [] else [⟨[], "is not of type " ++ t⟩]
  | _ => []

/-- Errors of the `enum` keyword (modelled from the spec). -/
def enumErrors (ev : Json) (d : Json) : List VError :=
  match ev with
  | .arr vs =>
    if vs.containsVal d then [] else [⟨[], "is not one of the enumerated values"⟩]
  | _ => []

mutual

/-- Modelled from the spec: `Draft7Validator.iter_errors(data)` for the
schema bound to the validator — all structural failures of `data` against
the schema, in schema key order. -/
def iterErrors (schema data : Json) : List VError :=
  match schema with
  | .obj fs => iterErrorsFields fs data
  | _ => []
termination_by sizeOf schema + sizeOf data
decreasing_by all_goals simp_arith

/-- Keyword dispatch over the schema object's fields. -/
def iterErrorsFields (fs : JsonFields) (data : Json) : List VError :=
  match fs with
  | .nil => []
  | .cons k v t =>
    (if k = "type" then typeErrors v data
     else if k = "enum" then enumErrors v data
     else if k = "properties" then
       (match v with
        | .obj props => iterErrorsProps props data
        | _ => [])
     else if k = "items" then
       (match data with
        | .arr xs => iterErrorsItems v xs 0
        | _ => [])
     else []) ++ iterErrorsFields t data
termination_by sizeOf fs + sizeOf data
decreasing_by all_goals simp_arith

/-- The `properties` keyword: validate each declared property present in the
instance against its subschema, prefixing the property name to paths. -/
def iterErrorsProps (props : JsonFields) (data : Json) : List VError :=
  match props with
  | .nil => []
  | .cons k sub t =>
    (match data with
     | .obj dfs => iterErrorsPropLookup k sub dfs
     | _ => []) ++ iterErrorsProps t data
termination_by sizeOf props + sizeOf data
decreasing_by all_goals simp_arith

/-- Find one declared property in the instance object and validate it. -/
def iterErrorsPropLookup (k : String) (sub : Json) (dfs : JsonFields) : List VError :=
  match dfs with
  | .nil => []
  | .cons dk dv dt =>
    if dk = k then (iterErrors sub dv).map (VError.prefixSeg (.prop k))
    else iterErrorsPropLookup k sub dt
termination_by sizeOf sub + sizeOf dfs
decreasing_by all_goals simp_arith

/-- The single-schema `items` keyword: validate every array element against
the item schema, prefixing the element index to paths. -/
def iterErrorsItems (sub : Json) (xs : JsonItems) (i : Nat) : List VError :=
  match xs with
  | .nil => []
  | .cons x t =>
    (iterErrors sub x).map (VError.prefixSeg (.idx i)) ++ iterErrorsItems sub t (i + 1)
termination_by sizeOf sub + sizeOf xs
decreasing_by all_goals simp_arith

end

/-- Run the compiled validator: the modelled `iter_errors` of its bound
schema (the snapshot is the resolution context, unused by the modelled
structural checker). -/
def runValidatorErrors (v : Validator) (data : Json) : List VError :=
  iterErrors v.schema data

/-! ## Validator cache and validate entry points -/

/-- `_get_validator`: return the cached validator, or build one bound to
`self._registry.contents(schema_id)` (raw lookup — `NoSuchResource` when the
raw ID is absent) and to the whole current registry, and cache it. -/
def getValidator (st : RegState) (schemaId : String) : PyResult Validator :=
  match getA st.validatorCache schemaId with
  | some v => .ok (v, st)
  | none =>
    match getA st.registry schemaId with
    | none => .error (.noSuchResource schemaId, st)
    | some schema =>
      .ok (⟨schema, st.registry⟩,
        { st with validatorCache := setA st.validatorCache schemaId ⟨schema, st.registry⟩ })

/-- The requested-ID list of both validate entry points:
`schema_ids` extended with `get_schema_id(fp)` for each filepath for which
the lookup is not `None` (unregistered filepaths are silently dropped). -/
def resolveRequestedIds (st : RegState) (schemaFilepaths : List String)
    (schemaIds : List String) : List String :=
  schemaIds ++ schemaFilepaths.filterMap (fun fp => getSchemaId st fp)

/-- The per-identifier loop of `validate_json_against_schemas`:
membership check (cleaned), validator, `validator.validate(data)` — which
raises the first error of `iter_errors`. -/
def validateLoop (data : Json) : RegState → List String → PyResult Unit
  | st, [] => .ok ((), st)
  | st, schemaId :: rest =>
    if schemaIdInRegistry st schemaId then
      match getValidator st schemaId with
      | .error e => .error e
      | .ok (v, st') =>
        match runValidatorErrors v data with
        | [] => validateLoop data st' rest
        | e :: _ => .error (.validationError e, st')
    else
      .error (.keyError ("Schema '" ++ schemaId ++ "' not found in registry."), st)

/-- `validate_json_against_schemas` (the registry method): fail-fast
validation of `data` against the requested schemas. -/
def validateJsonAgainstSchemas (st : RegState) (data : Json)
    (schemaFilepaths : List String) (schemaIds : List String) : PyResult Unit :=
  validateLoop data st (resolveRequestedIds st schemaFilepaths schemaIds)

/-- The in-memory shape of `ValidationErrorGroup`. -/
structure ValidationErrorGroup where
  schema_id : String
  message : String
  errors : List VError
  deriving DecidableEq

/-- `".".join(p if isinstance(p, str) else "item" for p in error.path)`:
property segments are kept, every non-string (array index) segment becomes
the literal `item`. -/
def normalizedPath (e : VError) : String :=
  String.intercalate "." (e.path.map (fun s => match s with
    | .prop p => p
    | .idx _ => "item"))

/-- `f"{path}: {error.message}"` — the grouping key of
`validate_json_against_schemas_complete`. -/
def groupMessage (e : VError) : String :=
  normalizedPath e ++ ": " ++ e.message

/-- `unique_errors.setdefault(message, []); unique_errors[message].append(error)`
on an insertion-ordered dict. -/
def addError (acc : List (String × List VError)) (m : String) (e : VError) :
    List (String × List VError) :=
  match acc with
  | [] => [(m, [e])]
  | (m', es) :: t =>
    if m' = m then (m', es ++ [e]) :: t else (m', es) :: addError t m e

/-- The `for error in errors` grouping loop. -/
def buildUnique (errs : List VError) (acc : List (String × List VError)) :
    List (String × List VError) :=
  match errs with
  | [] => acc
  | e :: rest => buildUnique rest (addError acc (groupMessage e) e)

/-- The `for message, errors in unique_errors.items()` loop: one
`ValidationErrorGroup` per distinct grouping key. -/
def groupsFor (schemaId : String) (errs : List VError) :
    List ValidationErrorGroup :=
  (buildUnique errs []).map (fun p => ⟨schemaId, p.1, p.2⟩)

/-- The per-identifier loop of `validate_json_against_schemas_complete`. -/
def validateCompleteLoop (data : Json) :
    RegState → List String → List ValidationErrorGroup →
      PyResult (List ValidationErrorGroup)
  | st, [], acc => .ok (acc, st)
  | st, schemaId :: rest, acc =>
    if schemaIdInRegistry st schemaId then
      match getValidator st schemaId with
      | .error e => .error e
      | .ok (v, st') =>
        validateCompleteLoop data st' rest
          (acc ++ groupsFor schemaId (runValidatorErrors v data))
    else
      .error (.keyError ("Schema '" ++ schemaId ++ "' not found in registry."), st)

/-- `validate_json_against_schemas_complete`: run every requested validator
fully and return all failures grouped by `(schema_id, normalized path and
message)`. -/
def validateJsonAgainstSchemasComplete (st : RegState) (data : Json)
    (schemaFilepaths : List String) (schemaIds : List String) :
    PyResult (List ValidationErrorGroup) :=
  validateCompleteLoop data st (resolveRequestedIds st schemaFilepaths schemaIds) []

/-! ## `update_schema_refs_to` -/

/-- The `for schema_id in self._registry` loop: rewrite each stored document
against the current state (resolution context: registry keys and mappings,
neither changed by the rewrites themselves). -/
def updateRefsLoop : RegState → ConvertTo → List String → RegState
  | st, _, [] => st
  | st, c, sid :: rest =>
    updateRefsLoop
      { st with registry := setA st.registry sid (resolveSchemaRefs st c ((getA st.registry sid).getD (.obj .nil))) }
      c rest

/-- `update_schema_refs_to`: clear the validator cache, then rewrite every
stored schema's references to the requested form. -/
def updateSchemaRefsTo (st : RegState) (c : ConvertTo) : RegState :=
  updateRefsLoop { st with validatorCache := [] } c (st.registry.map (fun p => p.1))

/-! ### C5: cache invalidation and coherence -/

theorem getA_mem {β : Type} {l : List (String × β)} {k : String} {v : β}
    (h : getA l k = some v) : (k, v) ∈ l := by
  induction l with
  | nil => simp [getA] at h
  | cons p t ih =>
      rw [getA] at h
      by_cases hk : p.1 = k
      · rw [if_pos hk] at h
        simp only [Option.some.injEq] at h
        cases p
        cases hk
        cases h
        exact List.mem_cons_self _ _
      · rw [if_neg hk] at h
        exact List.mem_cons_of_mem p (ih h)

theorem mem_setA {β : Type} {l : List (String × β)} {k : String} {v : β}
    {p : String × β} (h : p ∈ setA l k v) : p = (k, v) ∨ p ∈ l := by
  induction l with
  | nil => simpa [setA] using h
  | cons q t ih =>
      rw [setA] at h
      by_cases hk : q.1 = k
      · rw [if_pos hk] at h
        rcases List.mem_cons.mp h with h1 | h1
        · exact Or.inl h1
        · exact Or.inr (List.mem_cons_of_mem q h1)
      · rw [if_neg hk] at h
        rcases List.mem_cons.mp h with h1 | h1
        · exact Or.inr (h1 ▸ List.mem_cons_self q t)
        · rcases ih h1 with h2 | h2
          · exact Or.inl h2
          · exact Or.inr (List.mem_cons_of_mem q h2)

theorem getValidator_frame {st : RegState} {sid : String} {v : Validator}
    {st' : RegState} (h : getValidator st sid = .ok (v, st')) :
    st'.registry = st.registry ∧ st'.mappings = st.mappings := by
  unfold getValidator at h
  split at h
  · simp only [Except.ok.injEq, Prod.mk.injEq] at h
    rw [← h.2]
    exact ⟨rfl, rfl⟩
  · split at h
    · exact Except.noConfusion h
    · simp only [Except.ok.injEq, Prod.mk.injEq] at h
      rw [← h.2]
      exact ⟨rfl, rfl⟩

theorem updateRefsLoop_frame (c : ConvertTo) :
    ∀ (ids : List String) (st : RegState),
      (updateRefsLoop st c ids).validatorCache = st.validatorCache ∧
        (updateRefsLoop st c ids).mappings = st.mappings := by
  intro ids
  induction ids with
  | nil => intro st; exact ⟨rfl, rfl⟩
  | cons sid rest ih =>
      intro st
      rw [updateRefsLoop]
      exact ih _

/-- A cached validator is coherent when its resolution snapshot is the
current store contents and its bound schema is the currently stored document
for its key (spec §3 "Validator Cache entry", §4.4). -/
abbrev CacheCoherent (st : RegState) : Prop :=
  ∀ p ∈ st.validatorCache,
    p.2.snapshot = st.registry ∧ getA st.registry p.1 = some p.2.schema

/-- C5: every store mutation invalidates the whole validator cache, and the
cache stays coherent with the store.  Conjuncts: (1)-(2) a `register_schema`
call that inserts a new canonical identifier (either entry form) leaves an
empty validator cache; (3)-(4) `update_schema_refs_to` leaves an empty (and
hence trivially coherent) cache; (5) `_get_validator` returns a validator
built against the current store contents and preserves coherence — so after
any successful registration every validator subsequently obtained reflects
the new registry state; (6)-(7) successful registration preserves coherence
(a no-op re-registration changes nothing; an insertion clears the cache). -/
theorem C5_cache_invalidated_on_mutation :
    (∀ (st : RegState) (doc : Json) (i : String) (st' : RegState),
      registerSchemaDoc st doc = .ok (i, st') → getA st.registry i = none →
        st'.validatorCache = []) ∧
    (∀ (fs : String → Option Json) (st : RegState) (fp i : String) (st' : RegState),
      registerSchemaFile fs st fp = .ok (i, st') → getA st.registry i = none →
        st'.validatorCache = []) ∧
    (∀ (st : RegState) (c : ConvertTo), (updateSchemaRefsTo st c).validatorCache = []) ∧
    (∀ (st : RegState) (c : ConvertTo), CacheCoherent (updateSchemaRefsTo st c)) ∧
    (∀ (st : RegState) (sid : String) (v : Validator) (st' : RegState),
      CacheCoherent st → getValidator st sid = .ok (v, st') →
        CacheCoherent st' ∧ v.snapshot = st'.registry ∧
          getA st'.registry sid = some v.schema) ∧
    (∀ (st : RegState) (doc : Json) (i : String) (st' : RegState),
      CacheCoherent st → registerSchemaDoc st doc = .ok (i, st') →
        CacheCoherent st') ∧
    (∀ (fs : String → Option Json) (st : RegState) (fp i : String) (st' : RegState),
      CacheCoherent st → registerSchemaFile fs st fp = .ok (i, st') →
        CacheCoherent st') := by
  have hcacheDoc : ∀ (st : RegState) (doc : Json) (i : String) (st' : RegState),
      registerSchemaDoc st doc = .ok (i, st') → getA st.registry i = none →
        st'.validatorCache = [] := by
    intro st doc i st' h hnone
    obtain ⟨s, _, _, _, hcase⟩ := registerInner_ok_cases h
    rcases hcase with ⟨hg, rfl⟩ | ⟨_, rfl⟩
    · rw [hg] at hnone
      exact Option.noConfusion hnone
    · rfl
  have hfileOk : ∀ (fs : String → Option Json) (st : RegState) (fp i : String)
      (st' : RegState), registerSchemaFile fs st fp = .ok (i, st') →
        ∃ doc1 st1, registerSchemaInner st doc1 = .ok (i, st1) ∧
          st'.registry = st1.registry ∧ st'.validatorCache = st1.validatorCache := by
    intro fs st fp i st' h
    unfold registerSchemaFile at h
    split at h
    · exact Except.noConfusion h
    · split at h
      · split at h
        · next s0 hgf =>
          unfold registerSchemaFileStep at h
          split at h
          · exact Except.noConfusion h
          · next sid st1 hinner =>
            simp only [Except.ok.injEq, Prod.mk.injEq] at h
            obtain ⟨hsid, hst⟩ := h
            subst hsid
            exact ⟨_, st1, hinner, by rw [← hst], by rw [← hst]⟩
        · exact Except.noConfusion h
        · next hgf =>
          unfold registerSchemaFileStep at h
          split at h
          · exact Except.noConfusion h
          · next sid st1 hinner =>
            simp only [Except.ok.injEq, Prod.mk.injEq] at h
            obtain ⟨hsid, hst⟩ := h
            subst hsid
            exact ⟨_, st1, hinner, by rw [← hst], by rw [← hst]⟩
      · exact Except.noConfusion h
  refine ⟨hcacheDoc, ?_, ?_, ?_, ?_, ?_, ?_⟩
  · intro fs st fp i st' h hnone
    obtain ⟨doc1, st1, hinner, _, hcache⟩ := hfileOk fs st fp i st' h
    rw [hcache]
    exact hcacheDoc st doc1 i st1 hinner hnone
  · intro st c
    exact (updateRefsLoop_frame c _ _).1
  · intro st c p hp
    have hc : (updateSchemaRefsTo st c).validatorCache = [] :=
      (updateRefsLoop_frame c _ _).1
    rw [hc] at hp
    exact absurd hp (List.not_mem_nil p)
  · intro st sid v st' hco h
    unfold getValidator at h
    split at h
    · next v0 hcached =>
      simp only [Except.ok.injEq, Prod.mk.injEq] at h
      obtain ⟨hv, hst⟩ := h
      subst hst
      rw [← hv]
      obtain ⟨h1, h2⟩ := hco (sid, v0) (getA_mem hcached)
      exact ⟨hco, h1, h2⟩
    · split at h
      · exact Except.noConfusion h
      · next schema hreg =>
        simp only [Except.ok.injEq, Prod.mk.injEq] at h
        obtain ⟨hv, hst⟩ := h
        subst hv
        subst hst
        refine ⟨?_, rfl, hreg⟩
        intro p hp
        rcases mem_setA hp with h1 | h1
        · subst h1
          exact ⟨rfl, hreg⟩
        · exact hco p h1
  · intro st doc i st' hco h
    obtain ⟨s, _, _, _, hcase⟩ := registerInner_ok_cases h
    rcases hcase with ⟨_, rfl⟩ | ⟨_, rfl⟩
    · exact hco
    · intro p hp
      exact absurd hp (List.not_mem_nil p)
  · intro fs st fp i st' hco h
    obtain ⟨doc1, st1, hinner, hreg, hcache⟩ := hfileOk fs st fp i st' h
    obtain ⟨s, _, _, _, hcase⟩ := registerInner_ok_cases hinner
    intro p hp
    rw [hcache] at hp
    rcases hcase with ⟨_, h1⟩ | ⟨_, h1⟩
    · rw [h1] at hp
      obtain ⟨ha, hb⟩ := hco p hp
      rw [hreg, h1]
      exact ⟨ha, hb⟩
    · rw [h1] at hp
      exact absurd hp (List.not_mem_nil p)

/-- The state after building and caching the validator for `x` on
`regStateX`. -/
def regStateXCached : RegState :=
  { registry := [("x", docX)], mappings := []
    validatorCache := [("x", ⟨docX, [("x", docX)]⟩)] }

/-- C5 witness: on the concrete one-schema registry, a fresh registration
leaves the cache empty, `update_schema_refs_to` leaves it empty, and the
validator obtained for `x` is bound to the current store contents. -/
theorem C5_cache_invalidated_on_mutation_witness :
    regStateX.validatorCache = [] ∧
    (CacheCoherent regStateXCached ∧
      (⟨docX, [("x", docX)]⟩ : Validator).snapshot = regStateXCached.registry ∧
      getA regStateXCached.registry "x" = some docX) :=
  ⟨C5_cache_invalidated_on_mutation.1 regStateEmpty docX "x" regStateX
      (by decide) (by decide),
    (C5_cache_invalidated_on_mutation.2.2.2.2.1 regStateX "x"
      ⟨docX, [("x", docX)]⟩ regStateXCached (by decide) (by decide))⟩

/-! ### C2: fail-fast validation -/

/-- C2 counterexample: requesting validation *by filepath* for a path that
was never registered does not raise NotFound — the filepath is silently
dropped by the list comprehension in `validate_json_against_schemas`
(`if (sid := self.get_schema_id(fp)) is not None`), and validation succeeds
vacuously, contradicting the claim that an unregistered requested schema
always raises NotFound. -/
theorem C2_counterexample :
    getSchemaId regStateEmpty "/unknown_path.json" = none ∧
    validateJsonAgainstSchemas regStateEmpty (.obj .nil) ["/unknown_path.json"] [] =
      .ok ((), regStateEmpty) :=
  ⟨by decide, by decide⟩

/-- C2 (amended): per requested *identifier*, in order: an unregistered
identifier raises the not-found `KeyError` with the state unchanged (no
validator of that identifier is obtained or run); a registered identifier's
validator runs, its first failure is raised immediately and the remaining
identifiers are not checked (the outcome does not depend on them); a passing
identifier hands the (possibly cache-extended) state to the rest of the
list.  Requested *filepaths* resolve through the filepath → identifier
mapping: unregistered filepaths are silently skipped, registered ones
validate exactly as their mapped identifier.  Validating against the single
identifier `never_registered` raises the not-found `KeyError`, not a
validation failure. -/
theorem C2_validate_fail_fast_amended :
    (∀ (st : RegState) (data : Json) (sid : String) (ids : List String),
      schemaIdInRegistry st sid = false →
        validateJsonAgainstSchemas st data [] (sid :: ids) =
          .error (.keyError ("Schema '" ++ sid ++ "' not found in registry."), st)) ∧
    (∀ (st st' : RegState) (data : Json) (sid : String) (ids : List String)
        (v : Validator) (e : VError) (tl : List VError),
      schemaIdInRegistry st sid = true → getValidator st sid = .ok (v, st') →
      runValidatorErrors v data = e :: tl →
        validateJsonAgainstSchemas st data [] (sid :: ids) =
          .error (.validationError e, st')) ∧
    (∀ (st st' : RegState) (data : Json) (sid : String) (ids : List String)
        (v : Validator),
      schemaIdInRegistry st sid = true → getValidator st sid = .ok (v, st') →
      runValidatorErrors v data = [] →
        validateJsonAgainstSchemas st data [] (sid :: ids) =
          validateJsonAgainstSchemas st' data [] ids) ∧
    (∀ (st : RegState) (data : Json) (fps1 fps2 : List String) (fp : String)
        (ids : List String),
      getSchemaId st fp = none →
        validateJsonAgainstSchemas st data (fps1 ++ fp :: fps2) ids =
          validateJsonAgainstSchemas st data (fps1 ++ fps2) ids) ∧
    (∀ (st : RegState) (data : Json) (fp sid : String),
      getSchemaId st fp = some sid →
        validateJsonAgainstSchemas st data [fp] [] =
          validateJsonAgainstSchemas st data [] [sid]) ∧
    (validateJsonAgainstSchemas regStateEmpty (.obj .nil) [] ["never_registered"] =
      .error (.keyError "Schema 'never_registered' not found in registry.",
        regStateEmpty)) := by
  refine ⟨?_, ?_, ?_, ?_, ?_, by decide⟩
  · intro st data sid ids h
    simp [validateJsonAgainstSchemas, resolveRequestedIds, validateLoop, h]
  · intro st st' data sid ids v e tl h1 h2 h3
    simp [validateJsonAgainstSchemas, resolveRequestedIds, validateLoop, h1, h2, h3]
  · intro st st' data sid ids v h1 h2 h3
    simp [validateJsonAgainstSchemas, resolveRequestedIds, validateLoop, h1, h2, h3]
  · intro st data fps1 fps2 fp ids h
    unfold getSchemaId at h
    simp [validateJsonAgainstSchemas, resolveRequestedIds, getSchemaId,
      List.filterMap_append, List.filterMap_cons, h]
  · intro st data fp sid h
    unfold getSchemaId at h
    simp [validateJsonAgainstSchemas, resolveRequestedIds, getSchemaId,
      List.filterMap_cons, h]

/-- C2 witness: requesting the unregistered identifier `nope` on the
one-schema registry raises the not-found `KeyError` with the state
unchanged. -/
theorem C2_validate_fail_fast_amended_witness :
    validateJsonAgainstSchemas regStateX (.obj .nil) [] ["nope"] =
      .error (.keyError "Schema 'nope' not found in registry.", regStateX) :=
  C2_validate_fail_fast_amended.1 regStateX (.obj .nil) "nope" [] (by decide)

/-! ### C3: collect-all validation and error grouping -/

/-- Well-formedness of one grouping entry: non-empty, and every member's
grouping key is the entry key. -/
abbrev GroupEntryOk (q : String × List VError) : Prop :=
  q.2 ≠ [] ∧ ∀ e ∈ q.2, groupMessage e = q.1

theorem addError_entryOk {acc : List (String × List VError)} {e : VError}
    (hacc : ∀ q ∈ acc, GroupEntryOk q) :
    ∀ q ∈ addError acc (groupMessage e) e, GroupEntryOk q := by
  induction acc with
  | nil =>
      intro q hq
      rw [addError] at hq
      rcases List.mem_cons.mp hq with h1 | h1
      · subst h1
        exact ⟨by simp, by simp⟩
      · exact absurd h1 (List.not_mem_nil q)
  | cons p t ih =>
      intro q hq
      rw [addError] at hq
      by_cases hm : p.1 = groupMessage e
      · rw [if_pos hm] at hq
        rcases List.mem_cons.mp hq with h1 | h1
        · subst h1
          obtain ⟨hne, hall⟩ := hacc p (List.mem_cons_self p t)
          refine ⟨by simp, ?_⟩
          intro e' he'
          rcases List.mem_append.mp he' with h2 | h2
          · exact hall e' h2
          · simp only [List.mem_singleton] at h2
            subst h2
            exact hm.symm
        · exact hacc q (List.mem_cons_of_mem p h1)
      · rw [if_neg hm] at hq
        rcases List.mem_cons.mp hq with h1 | h1
        · exact h1 ▸ hacc p (List.mem_cons_self p t)
        · exact ih (fun q' hq' => hacc q' (List.mem_cons_of_mem p hq')) q h1

theorem buildUnique_entryOk (errs : List VError) :
    ∀ acc, (∀ q ∈ acc, GroupEntryOk q) →
      ∀ q ∈ buildUnique errs acc, GroupEntryOk q := by
  induction errs with
  | nil => intro acc hacc q hq; exact hacc q hq
  | cons e rest ih =>
      intro acc hacc q hq
      rw [buildUnique] at hq
      exact ih _ (addError_entryOk hacc) q hq

theorem addError_keys (acc : List (String × List VError)) (m : String) (e : VError) :
    (addError acc m e).map Prod.fst =
      if m ∈ acc.map Prod.fst then acc.map Prod.fst
      else acc.map Prod.fst ++ [m] := by
  induction acc with
  | nil => simp [addError]
  | cons p t ih =>
      rw [addError]
      by_cases hm : p.1 = m
      · rw [if_pos hm, List.map_cons,
          if_pos (List.mem_map.mpr ⟨p, List.mem_cons_self p t, hm⟩)]
        simp [hm]
      · have hne : ¬ m = p.1 := fun hh => hm hh.symm
        rw [if_neg hm, List.map_cons, List.map_cons, ih]
        by_cases hmem : m ∈ t.map Prod.fst
        · rw [if_pos hmem, if_pos (List.mem_cons_of_mem _ hmem)]
        · rw [if_neg hmem, if_neg (by simp [List.mem_cons, hne, hmem]),
            List.cons_append]

theorem addError_keys_nodup {acc : List (String × List VError)} {m : String}
    {e : VError} (h : (acc.map Prod.fst).Nodup) :
    ((addError acc m e).map Prod.fst).Nodup := by
  rw [addError_keys]
  split
  · exact h
  · next hc =>
    refine List.Nodup.append h (List.nodup_singleton m) ?_
    intro a ha hb
    simp only [List.mem_singleton] at hb
    subst hb
    exact hc ha

theorem buildUnique_keys_nodup (errs : List VError) :
    ∀ acc, (acc.map Prod.fst).Nodup → ((buildUnique errs acc).map Prod.fst).Nodup := by
  induction errs with
  | nil => intro acc h; exact h
  | cons e rest ih =>
      intro acc h
      rw [buildUnique]
      exact ih _ (addError_keys_nodup h)

theorem addError_mem_self (acc : List (String × List VError)) (m : String)
    (e : VError) : ∃ q ∈ addError acc m e, e ∈ q.2 := by
  induction acc with
  | nil => exact ⟨(m, [e]), by simp [addError]⟩
  | cons p t ih =>
      rw [addError]
      by_cases hm : p.1 = m
      · rw [if_pos hm]
        exact ⟨(p.1, p.2 ++ [e]), List.mem_cons_self _ _, by simp⟩
      · rw [if_neg hm]
        obtain ⟨q, hq, he⟩ := ih
        exact ⟨q, List.mem_cons_of_mem p hq, he⟩

theorem addError_mono {acc : List (String × List VError)} {m : String}
    {e : VError} {q : String × List VError} (hq : q ∈ acc) :
    ∃ q' ∈ addError acc m e, q.1 = q'.1 ∧ ∀ x ∈ q.2, x ∈ q'.2 := by
  induction acc with
  | nil => exact absurd hq (List.not_mem_nil q)
  | cons p t ih =>
      rw [addError]
      by_cases hm : p.1 = m
      · rw [if_pos hm]
        rcases List.mem_cons.mp hq with h1 | h1
        · subst h1
          refine ⟨(q.1, q.2 ++ [e]), List.mem_cons_self _ _, rfl, ?_⟩
          intro x hx
          exact List.mem_append_left _ hx
        · exact ⟨q, List.mem_cons_of_mem _ (by simpa using h1), rfl, fun x hx => hx⟩
      · rw [if_neg hm]
        rcases List.mem_cons.mp hq with h1 | h1
        · subst h1
          exact ⟨q, List.mem_cons_self q _, rfl, fun x hx => hx⟩
        · obtain ⟨q', hq', hk, hsub⟩ := ih h1
          exact ⟨q', List.mem_cons_of_mem p hq', hk, hsub⟩

theorem buildUnique_mono (errs : List VError) :
    ∀ acc (q : String × List VError), q ∈ acc →
      ∃ q' ∈ buildUnique errs acc, q.1 = q'.1 ∧ ∀ x ∈ q.2, x ∈ q'.2 := by
  induction errs with
  | nil => intro acc q hq; exact ⟨q, hq, rfl, fun x hx => hx⟩
  | cons e rest ih =>
      intro acc q hq
      rw [buildUnique]
      obtain ⟨q1, hq1, hk1, hs1⟩ := addError_mono (m := groupMessage e) (e := e) hq
      obtain ⟨q2, hq2, hk2, hs2⟩ := ih _ q1 hq1
      exact ⟨q2, hq2, hk1.trans hk2, fun x hx => hs2 x (hs1 x hx)⟩

theorem buildUnique_complete (errs : List VError) :
    ∀ acc, ∀ e ∈ errs, ∃ q ∈ buildUnique errs acc, e ∈ q.2 := by
  induction errs with
  | nil => intro acc e he; exact absurd he (List.not_mem_nil e)
  | cons e0 rest ih =>
      intro acc e he
      rw [buildUnique]
      rcases List.mem_cons.mp he with h1 | h1
      · subst h1
        obtain ⟨q, hq, hmem⟩ := addError_mem_self acc (groupMessage e) e
        obtain ⟨q', hq', _, hsub⟩ := buildUnique_mono rest _ q hq
        exact ⟨q', hq', hsub e hmem⟩
      · exact ih _ e h1

theorem schemaIdInRegistry_congr {st st' : RegState} (h : st'.registry = st.registry)
    (sid : String) : schemaIdInRegistry st' sid = schemaIdInRegistry st sid := by
  unfold schemaIdInRegistry
  rw [h]

theorem getValidator_ok_props {st : RegState} {sid : String} {v : Validator}
    {st' : RegState} (h : getValidator st sid = .ok (v, st')) :
    st'.registry = st.registry ∧
      (CacheCoherent st → CacheCoherent st' ∧ getA st.registry sid = some v.schema) := by
  unfold getValidator at h
  split at h
  · next v0 hcached =>
    simp only [Except.ok.injEq, Prod.mk.injEq] at h
    obtain ⟨hv, hst⟩ := h
    subst hst
    refine ⟨rfl, fun hco => ⟨hco, ?_⟩⟩
    rw [← hv]
    exact (hco (sid, v0) (getA_mem hcached)).2
  · split at h
    · exact Except.noConfusion h
    · next schema hreg =>
      simp only [Except.ok.injEq, Prod.mk.injEq] at h
      obtain ⟨hv, hst⟩ := h
      subst hst
      refine ⟨rfl, fun hco => ⟨?_, ?_⟩⟩
      · intro p hp
        rcases mem_setA hp with h1 | h1
        · subst h1
          exact ⟨rfl, hreg⟩
        · exact hco p h1
      · rw [← hv]
        exact hreg

theorem validateCompleteLoop_ok (data : Json) :
    ∀ (ids : List String) (st : RegState) (acc : List ValidationErrorGroup),
      (∀ sid ∈ ids, schemaIdInRegistry st sid = true ∧ (getA st.registry sid).isSome) →
      ∃ gs st', validateCompleteLoop data st ids acc = .ok (acc ++ gs, st') ∧
        st'.registry = st.registry ∧
        (CacheCoherent st →
          (∀ sid ∈ ids, ∀ sch, getA st.registry sid = some sch →
            iterErrors sch data = []) →
          gs = []) := by
  intro ids
  induction ids with
  | nil =>
      intro st acc _
      exact ⟨[], st, by simp [validateCompleteLoop], rfl, fun _ _ => rfl⟩
  | cons sid rest ih =>
      intro st acc h
      obtain ⟨hin, hreg⟩ := h sid (List.mem_cons_self sid rest)
      obtain ⟨sch0, hsch0⟩ := Option.isSome_iff_exists.mp hreg
      have hgv : ∃ v st', getValidator st sid = .ok (v, st') := by
        unfold getValidator
        split
        · exact ⟨_, _, rfl⟩
        · split
          · next hnone =>
              rw [hsch0] at hnone
              exact Option.noConfusion hnone
          · exact ⟨_, _, rfl⟩
      obtain ⟨v, st', hv⟩ := hgv
      obtain ⟨hregeq, hcoh⟩ := getValidator_ok_props hv
      have h' : ∀ s ∈ rest, schemaIdInRegistry st' s = true ∧
          (getA st'.registry s).isSome := by
        intro s hs
        obtain ⟨ha, hb⟩ := h s (List.mem_cons_of_mem sid hs)
        rw [schemaIdInRegistry_congr hregeq, hregeq]
        exact ⟨ha, hb⟩
      obtain ⟨gs, st'', hloop, hreg'', hempty⟩ :=
        ih st' (acc ++ groupsFor sid (runValidatorErrors v data)) h'
      refine ⟨groupsFor sid (runValidatorErrors v data) ++ gs, st'', ?_, ?_, ?_⟩
      · rw [validateCompleteLoop, hin]
        simp only [if_true, hv]
        rw [hloop, List.append_assoc]
      · rw [hreg'', hregeq]
      · intro hco hall
        have hco' : CacheCoherent st' := (hcoh hco).1
        have hsch : getA st.registry sid = some v.schema := (hcoh hco).2
        have hiter : iterErrors v.schema data = [] :=
          hall sid (List.mem_cons_self sid rest) v.schema hsch
        have hgroups : groupsFor sid (runValidatorErrors v data) = [] := by
          unfold runValidatorErrors
          rw [hiter]
          rfl
        have hall' : ∀ s ∈ rest, ∀ sch, getA st'.registry s = some sch →
            iterErrors sch data = [] := by
          intro s hs sch hsch'
          rw [hregeq] at hsch'
          exact hall s (List.mem_cons_of_mem sid hs) sch hsch'
        rw [hgroups, hempty hco' hall']
        rfl

/-- The inner schema `{"type": "string", "enum": ["a"]}`. -/
def innerNameSchema : Json :=
  .obj (.cons "type" (.str "string") (.cons "enum" (.arr (.cons (.str "a") .nil)) .nil))

/-- `{"$id": "s2", "type": "object", "properties": {"name": innerNameSchema}}`. -/
def schemaS2 : Json :=
  .obj (.cons "$id" (.str "s2") (.cons "type" (.str "object")
    (.cons "properties" (.obj (.cons "name" innerNameSchema .nil)) .nil)))

/-- `{"name": 123}`. -/
def dataName123 : Json := .obj (.cons "name" (.num 123) .nil)

/-- The registry holding only `schemaS2`. -/
def regStateS2 : RegState :=
  { registry := [("s2", schemaS2)], mappings := [], validatorCache := [] }

/-- `regStateS2` after building and caching the validator for `s2`. -/
def regStateS2Cached : RegState :=
  { registry := [("s2", schemaS2)], mappings := []
    validatorCache := [("s2", ⟨schemaS2, [("s2", schemaS2)]⟩)] }

theorem iterErrors_s2_123 : iterErrors schemaS2 dataName123 =
    [⟨[.prop "name"], "is not of type string"⟩,
     ⟨[.prop "name"], "is not one of the enumerated values"⟩] := by
  simp [schemaS2, dataName123, innerNameSchema, iterErrors, iterErrorsFields,
    iterErrorsProps, iterErrorsPropLookup, typeErrors, enumErrors, typeMatches,
    JsonItems.containsVal, VError.prefixSeg]

/-- C3 counterexample: validating `{"name": 123}` against the registered
schema `s2` (which requires `name` to be a string *and* restricts it by
`enum`) returns **two** distinct error groups for the same
`(schema identifier, normalized error path)` pair — both groups belong to
`s2` and both normalized paths are `name` — because the code groups by the
combined `"path: message"` string, not by the path.  This refutes "exactly
one ValidationErrorGroup per pair of (schema identifier, normalized error
path)". -/
theorem C3_counterexample :
    registerSchemaDoc regStateEmpty schemaS2 = .ok ("s2", regStateS2) ∧
    validateJsonAgainstSchemasComplete regStateS2 dataName123 [] ["s2"] =
      .ok ([⟨"s2", "name: is not of type string",
              [⟨[.prop "name"], "is not of type string"⟩]⟩,
            ⟨"s2", "name: is not one of the enumerated values",
              [⟨[.prop "name"], "is not one of the enumerated values"⟩]⟩],
        regStateS2Cached) ∧
    normalizedPath ⟨[.prop "name"], "is not of type string"⟩ = "name" ∧
    normalizedPath ⟨[.prop "name"], "is not one of the enumerated values"⟩ = "name" := by
  refine ⟨by decide, ?_, by decide, by decide⟩
  have h1 : schemaIdInRegistry regStateS2 "s2" = true := by decide
  have h2 : getValidator regStateS2 "s2" =
      .ok (⟨schemaS2, [("s2", schemaS2)]⟩, regStateS2Cached) := by decide
  have h3 : runValidatorErrors (⟨schemaS2, [("s2", schemaS2)]⟩ : Validator)
      dataName123 =
      [⟨[.prop "name"], "is not of type string"⟩,
       ⟨[.prop "name"], "is not one of the enumerated values"⟩] := by
    unfold runValidatorErrors
    exact iterErrors_s2_123
  unfold validateJsonAgainstSchemasComplete resolveRequestedIds
  simp only [List.filterMap_nil, List.append_nil]
  rw [validateCompleteLoop, h1]
  simp only [if_true, h2, h3]
  rw [validateCompleteLoop]
  decide

/-- `{"$id": "test_schema", "type": "object",
"properties": {"name": {"type": "string"}}}` (the repository's test schema). -/
def testSchemaDoc : Json :=
  .obj (.cons "$id" (.str "test_schema") (.cons "type" (.str "object")
    (.cons "properties" (.obj (.cons "name"
      (.obj (.cons "type" (.str "string") .nil)) .nil)) .nil)))

/-- `{"name": "ok"}`. -/
def dataNameOk : Json := .obj (.cons "name" (.str "ok") .nil)

/-- The registry holding only `testSchemaDoc`. -/
def regStateTest : RegState :=
  { registry := [("test_schema", testSchemaDoc)], mappings := [], validatorCache := [] }

/-- `regStateTest` after building and caching the validator. -/
def regStateTestCached : RegState :=
  { registry := [("test_schema", testSchemaDoc)], mappings := []
    validatorCache := [("test_schema",
      ⟨testSchemaDoc, [("test_schema", testSchemaDoc)]⟩)] }

/-- C3 (amended): `validate_json_against_schemas_complete` never raises for
validation failures — for requested identifiers present in the registry it
returns a result list, which is empty whenever (with a coherent cache) every
requested schema accepts the data; the failures of each schema are grouped
by the combined string `"{normalized path}: {message}"` (where array-index
segments are rendered as the literal `item`), producing exactly one group
per distinct combined key — same-key failures merged into one group's list,
same-path different-message failures in separate groups; and the concrete
example: `{"name": 123}` against the `name`-is-a-string test schema yields
exactly one group with key `name: ...`, `{"name": "ok"}` yields the empty
list. -/
theorem C3_validate_complete_amended :
    (∀ (st : RegState) (data : Json) (ids : List String),
      (∀ sid ∈ ids, schemaIdInRegistry st sid = true ∧
        (getA st.registry sid).isSome) →
      ∃ gs st', validateJsonAgainstSchemasComplete st data [] ids = .ok (gs, st') ∧
        (CacheCoherent st →
          (∀ sid ∈ ids, ∀ sch, getA st.registry sid = some sch →
            iterErrors sch data = []) →
          gs = [])) ∧
    (∀ (sid : String) (errs : List VError),
      ((groupsFor sid errs).map ValidationErrorGroup.message).Nodup ∧
      (∀ g ∈ groupsFor sid errs, g.schema_id = sid ∧ g.errors ≠ [] ∧
        ∀ e ∈ g.errors, groupMessage e = g.message) ∧
      (∀ e ∈ errs, ∃ g ∈ groupsFor sid errs, e ∈ g.errors)) ∧
    (validateJsonAgainstSchemasComplete regStateTest dataName123 [] ["test_schema"] =
      .ok ([⟨"test_schema", "name: is not of type string",
        [⟨[.prop "name"], "is not of type string"⟩]⟩], regStateTestCached)) ∧
    (validateJsonAgainstSchemasComplete regStateTest dataNameOk [] ["test_schema"] =
      .ok ([], regStateTestCached)) := by
  refine ⟨?_, ?_, ?_, ?_⟩
  · intro st data ids h
    obtain ⟨gs, st', hloop, _, hempty⟩ := validateCompleteLoop_ok data ids st [] h
    refine ⟨gs, st', ?_, hempty⟩
    unfold validateJsonAgainstSchemasComplete resolveRequestedIds
    simpa using hloop
  · intro sid errs
    refine ⟨?_, ?_, ?_⟩
    · have hn := buildUnique_keys_nodup errs [] (by simp)
      have heq : (groupsFor sid errs).map ValidationErrorGroup.message =
          (buildUnique errs []).map Prod.fst := by
        unfold groupsFor
        rw [List.map_map]
        rfl
      rw [heq]
      exact hn
    · intro g hg
      obtain ⟨q, hq, hgq⟩ := List.mem_map.mp hg
      obtain ⟨hne, hall⟩ := buildUnique_entryOk errs [] (by simp) q hq
      subst hgq
      exact ⟨rfl, hne, hall⟩
    · intro e he
      obtain ⟨q, hq, hmem⟩ := buildUnique_complete errs [] e he
      exact ⟨⟨sid, q.1, q.2⟩, List.mem_map.mpr ⟨q, hq, rfl⟩, hmem⟩
  · have h1 : schemaIdInRegistry regStateTest "test_schema" = true := by decide
    have h2 : getValidator regStateTest "test_schema" =
        .ok (⟨testSchemaDoc, [("test_schema", testSchemaDoc)]⟩,
          regStateTestCached) := by decide
    have h3 : runValidatorErrors
        (⟨testSchemaDoc, [("test_schema", testSchemaDoc)]⟩ : Validator)
        dataName123 = [⟨[.prop "name"], "is not of type string"⟩] := by
      unfold runValidatorErrors
      simp [testSchemaDoc, dataName123, iterErrors, iterErrorsFields,
        iterErrorsProps, iterErrorsPropLookup, typeErrors, typeMatches,
        VError.prefixSeg]
    unfold validateJsonAgainstSchemasComplete resolveRequestedIds
    simp only [List.filterMap_nil, List.append_nil]
    rw [validateCompleteLoop, h1]
    simp only [if_true, h2, h3]
    rw [validateCompleteLoop]
    decide
  · have h1 : schemaIdInRegistry regStateTest "test_schema" = true := by decide
    have h2 : getValidator regStateTest "test_schema" =
        .ok (⟨testSchemaDoc, [("test_schema", testSchemaDoc)]⟩,
          regStateTestCached) := by decide
    have h3 : runValidatorErrors
        (⟨testSchemaDoc, [("test_schema", testSchemaDoc)]⟩ : Validator)
        dataNameOk = [] := by
      unfold runValidatorErrors
      simp [testSchemaDoc, dataNameOk, iterErrors, iterErrorsFields,
        iterErrorsProps, iterErrorsPropLookup, typeErrors, typeMatches,
        VError.prefixSeg]
    unfold validateJsonAgainstSchemasComplete resolveRequestedIds
    simp only [List.filterMap_nil, List.append_nil]
    rw [validateCompleteLoop, h1]
    simp only [if_true, h2, h3]
    rw [validateCompleteLoop]
    decide

/-- C3 witness: the no-raise part applied to the concrete one-schema
registry `regStateTest` and compliant data yields a successful (empty)
result. -/
theorem C3_validate_complete_amended_witness :
    ∃ gs st', validateJsonAgainstSchemasComplete regStateTest dataNameOk []
      ["test_schema"] = .ok (gs, st') :=
  have h := C3_validate_complete_amended.1 regStateTest dataNameOk ["test_schema"]
    (by decide)
  ⟨h.choose, h.choose_spec.choose, h.choose_spec.choose_spec.1⟩

/-- The registry after registering `{"$id": "///"}` as an in-memory
document: it is stored under the empty-string identifier. -/
def regStateSlash : RegState :=
  { registry := [("", slashDoc)], mappings := [], validatorCache := [] }

/-- `regStateSlash` after building and caching the validator for `""`. -/
def regStateSlashCached : RegState :=
  { registry := [("", slashDoc)], mappings := []
    validatorCache := [("", ⟨slashDoc, [("", slashDoc)]⟩)] }

/-- C10 (amended): (1) for in-memory (dict) registration the
missing-identifier `ValueError` is raised if and only if the declared `$id`
is absent or falsy; (2) in particular the document `{"$id": "///"}`, whose
non-empty `$id` normalizes to `""`, is accepted and stored under the
empty-string identifier, which membership lookup, `contents` and the
fail-fast validate entry point then treat as a registered schema; (3) for
filepath registration, `$id` is normalized *before* the check, so for a
document whose `$id` is a string (or absent, with the resolved path as
default) the error is raised if and only if the normalized identifier is
empty. -/
theorem C10_missing_identifier_amended :
    (∀ (st : RegState) (doc : Json),
      registerSchemaDoc st doc = .error (.valueError "Schema must have a $id.", st) ↔
        (doc.getField "$id" = none ∨
          ∃ v, doc.getField "$id" = some v ∧ v.falsy = true)) ∧
    (registerSchemaDoc regStateEmpty slashDoc = .ok ("", regStateSlash) ∧
      schemaIdInRegistry regStateSlash "" = true ∧
      contents regStateSlash "" = some slashDoc ∧
      validateJsonAgainstSchemas regStateSlash (.obj .nil) [] [""] =
        .ok ((), regStateSlashCached)) ∧
    (∀ (fs : String → Option Json) (st : RegState) (fp raw : String)
        (fds : JsonFields),
      fs fp = some (.obj fds) →
      ((Json.obj fds).getField "$id" = some (.str raw) ∨
        ((Json.obj fds).getField "$id" = none ∧ raw = fp)) →
      (registerSchemaFile fs st fp =
          .error (.valueError "Schema must have a $id.", st) ↔
        cleanSchemaId raw = "")) := by
  have hstep : ∀ (st : RegState) (fds : JsonFields) (fp cid : String),
      (registerSchemaFileStep st (.obj fds) fp cid =
        .error (.valueError "Schema must have a $id.", st) ↔ cid = "") := by
    intro st fds fp cid
    have hgf : ((Json.obj fds).setField "$id" (.str cid)).getField "$id" =
        some (.str cid) := Json.getField_setField_obj fds "$id" (.str cid)
    constructor
    · intro h
      unfold registerSchemaFileStep at h
      split at h
      · next e0 hinner =>
        simp only [Except.error.injEq] at h
        subst h
        unfold registerSchemaInner at hinner
        rw [hgf] at hinner
        dsimp only at hinner
        by_cases hf : (Json.str cid).falsy = true
        · simpa [Json.falsy] using hf
        · rw [if_neg hf] at hinner
          split at hinner
          · next hin =>
            split at hinner
            · simp at hinner
            · exact Except.noConfusion hinner
          · exact Except.noConfusion hinner
      · exact Except.noConfusion h
    · intro h
      subst h
      unfold registerSchemaFileStep registerSchemaInner
      rw [hgf]
      simp [Json.falsy]
  refine ⟨?_, ⟨by decide, by decide, by decide, ?_⟩, ?_⟩
  · intro st doc
    constructor
    · intro h
      unfold registerSchemaDoc registerSchemaInner at h
      split at h
      · next hnone => exact Or.inl hnone
      · next idv heq =>
        split at h
        · next hf => exact Or.inr ⟨idv, heq, hf⟩
        · split at h
          · split at h
            · split at h
              · simp at h
              · exact Except.noConfusion h
            · exact Except.noConfusion h
          · simp at h
    · intro h
      unfold registerSchemaDoc registerSchemaInner
      rcases h with h | ⟨v, hv, hf⟩
      · rw [h]
      · rw [hv]
        simp [hf]
  · have h1 : schemaIdInRegistry regStateSlash "" = true := by decide
    have h2 : getValidator regStateSlash "" =
        .ok (⟨slashDoc, [("", slashDoc)]⟩, regStateSlashCached) := by decide
    have h3 : runValidatorErrors (⟨slashDoc, [("", slashDoc)]⟩ : Validator)
        (.obj .nil) = [] := by
      unfold runValidatorErrors
      simp [slashDoc, iterErrors, iterErrorsFields]
    unfold validateJsonAgainstSchemas resolveRequestedIds
    simp only [List.filterMap_nil, List.append_nil]
    rw [validateLoop, h1]
    simp only [if_true, h2, h3]
    rw [validateLoop]
  · intro fs st fp raw fds hfs hraw
    unfold registerSchemaFile
    rw [hfs]
    rcases hraw with ⟨hgf⟩ | ⟨hgf, hrawfp⟩
    · simp only [hgf]
      exact hstep st fds fp (cleanSchemaId raw)
    · subst hrawfp
      simp only [hgf]
      exact hstep st fds raw (cleanSchemaId raw)

/-- C10 witness: the filepath part applied to the concrete `/s.json` file
system: registration raises the missing-identifier error because
`clean("///") = ""`. -/
theorem C10_missing_identifier_amended_witness :
    registerSchemaFile fsSlash regStateEmpty "/s.json" =
      .error (.valueError "Schema must have a $id.", regStateEmpty) :=
  (C10_missing_identifier_amended.2.2 fsSlash regStateEmpty "/s.json" "///"
    (.cons "$id" (.str "///") .nil) (by decide) (Or.inl (by decide))).mpr (by decide)

/-! ### C8: round-trip reference rewriting -/

theorem takeWhile_append_all {α} (p : α → Bool) (l1 l2 : List α)
    (h : ∀ c ∈ l1, p c = true) :
    (l1 ++ l2).takeWhile p = l1 ++ l2.takeWhile p := by
  induction l1 with
  | nil => simp
  | cons a t ih =>
      have ha : p a = true := h a (List.mem_cons_self a t)
      simp only [List.cons_append, List.takeWhile_cons, ha, if_true]
      rw [ih (fun c hc => h c (List.mem_cons_of_mem a hc))]

theorem dropWhile_append_all {α} (p : α → Bool) (l1 l2 : List α)
    (h : ∀ c ∈ l1, p c = true) :
    (l1 ++ l2).dropWhile p = l2.dropWhile p := by
  induction l1 with
  | nil => simp
  | cons a t ih =>
      have ha : p a = true := h a (List.mem_cons_self a t)
      simp only [List.cons_append, List.dropWhile_cons, ha, if_true]
      exact ih (fun c hc => h c (List.mem_cons_of_mem a hc))

theorem string_mk_toList (s : String) : String.mk s.toList = s := rfl

theorem mem_keys_isSome {β : Type} {l : List (String × β)} {k : String}
    (h : k ∈ l.map Prod.fst) : (getA l k).isSome = true := by
  induction l with
  | nil => simp at h
  | cons p t ih =>
      rw [List.map_cons] at h
      rw [getA]
      by_cases hk : p.1 = k
      · rw [if_pos hk]
        rfl
      · rw [if_neg hk]
        rcases List.mem_cons.mp h with h1 | h1
        · exact absurd h1.symm hk
        · exact ih h1

theorem setA_keys_of_present {β : Type} {l : List (String × β)} {k : String}
    (v : β) (h : (getA l k).isSome = true) :
    (setA l k v).map Prod.fst = l.map Prod.fst := by
  induction l with
  | nil => simp [getA] at h
  | cons p t ih =>
      rw [setA]
      by_cases hk : p.1 = k
      · rw [if_pos hk]
        simp [hk]
      · rw [if_neg hk]
        rw [getA, if_neg hk] at h
        simp [ih h]

theorem getA_isSome_setA {β : Type} {l : List (String × β)} {k : String}
    (v : β) (h : (getA l k).isSome = true) (k' : String) :
    (getA (setA l k v) k').isSome = (getA l k').isSome := by
  by_cases hk : k' = k
  · subst hk
    rw [getA_setA_self, h]
    rfl
  · rw [getA_setA_ne l k k' v hk]

theorem string_toList_append (s t : String) : (s ++ t).toList = s.toList ++ t.toList :=
  rfl

theorem dropWhile_hash_shape (l : List Char) :
    l.dropWhile (fun c => decide (c ≠ '#')) = [] ∨
      ∃ t, l.dropWhile (fun c => decide (c ≠ '#')) = '#' :: t := by
  rcases hd : l.dropWhile (fun c => decide (c ≠ '#')) with _ | ⟨c, t⟩
  · exact Or.inl rfl
  · right
    have hc := head?_dropWhile_false (fun c => decide (c ≠ '#')) l c
      (by rw [hd]; rfl)
    simp only [decide_eq_false_iff_not, not_not] at hc
    refine ⟨t, ?_⟩
    rw [hc]

theorem refPrefix_append {sid frag : String} (hsid : ∀ c ∈ sid.toList, c ≠ '#')
    (hfrag : frag = "" ∨ startsWithHash frag = true) :
    refPrefix (sid ++ frag) = sid := by
  unfold refPrefix
  rw [string_toList_append,
    takeWhile_append_all _ _ _ (fun c hc => by simpa using hsid c hc)]
  have hfl : frag.toList.takeWhile (fun c => decide (c ≠ '#')) = [] := by
    rcases hfrag with h | h
    · rw [h]
      rfl
    · unfold startsWithHash at h
      rcases hl : frag.toList with _ | ⟨c, t⟩
      · rfl
      · rw [hl] at h
        have hc : c = '#' := by
          by_contra hcne
          simp [hcne] at h
        subst hc
        simp
  rw [hfl, List.append_nil]
  exact string_mk_toList sid

theorem refFragment_append {sid frag : String} (hsid : ∀ c ∈ sid.toList, c ≠ '#')
    (hfrag : frag = "" ∨ startsWithHash frag = true) :
    refFragment (sid ++ frag) = frag := by
  unfold refFragment
  rw [string_toList_append,
    dropWhile_append_all _ _ _ (fun c hc => by simpa using hsid c hc)]
  have hfl : frag.toList.dropWhile (fun c => decide (c ≠ '#')) = frag.toList := by
    rcases hfrag with h | h
    · rw [h]
      rfl
    · unfold startsWithHash at h
      rcases hl : frag.toList with _ | ⟨c, t⟩
      · rfl
      · rw [hl] at h
        have hc : c = '#' := by
          by_contra hcne
          simp [hcne] at h
        subst hc
        simp
  rw [hfl]
  exact string_mk_toList frag

theorem refFragment_spec (r : String) :
    refFragment r = "" ∨ startsWithHash (refFragment r) = true := by
  rcases dropWhile_hash_shape r.toList with h | ⟨t, h⟩
  · left
    unfold refFragment
    rw [h]
  · right
    have hfr : refFragment r = String.mk ('#' :: t) := by
      unfold refFragment
      rw [h]
    rw [hfr]
    rfl

theorem refPrefix_no_hash (r : String) : ∀ c ∈ (refPrefix r).toList, c ≠ '#' := by
  intro c hc
  have h1 : c ∈ r.toList.takeWhile (fun c => decide (c ≠ '#')) := hc
  have h2 := List.mem_takeWhile_imp h1
  simpa using h2

mutual

/-- Reference enumeration (the walker's enumeration mode, §4.3): every
non-local `$ref` string value in a document, visiting exactly the positions
`_resolve_schema_refs` rewrites. -/
def crossRefs : Json → List String
  | .obj fs => crossRefsFields fs
  | _ => []

/-- Enumeration over object fields. -/
def crossRefsFields : JsonFields → List String
  | .nil => []
  | .cons k v t => crossRefsValue k v ++ crossRefsFields t

/-- Enumeration of one field value. -/
def crossRefsValue (k : String) : Json → List String
  | .obj fs => crossRefsFields fs
  | .arr xs => crossRefsItems xs
  | .str s => if k = "$ref" ∧ startsWithHash s = false then [s] else []
  | _ => []

/-- Enumeration over array items (only dict items are visited). -/
def crossRefsItems : JsonItems → List String
  | .nil => []
  | .cons x t => crossRefsItem x ++ crossRefsItems t

/-- Enumeration of one array item. -/
def crossRefsItem : Json → List String
  | .obj fs => crossRefsFields fs
  | _ => []

end

/-- Is a reference's prefix resolvable by `_resolve_ref` — as a known source
path or (once normalized) as a known identifier? -/
def resolvablePrefix (st : RegState) (r : String) : Bool :=
  schemaRegistered st (refPrefix r) || schemaIdInRegistry st (refPrefix r)

theorem clean_fixed_allowed {k : String} (h : cleanSchemaId k = k) :
    ∀ c ∈ k.toList, isAllowedChar c = true := by
  intro c hc
  have hl : k.toList = cleanChars k.toList := by
    rw [show cleanChars k.toList = (cleanSchemaId k).toList from rfl, h]
  rw [hl] at hc
  exact (cleanChars_spec k.toList).1 c hc

theorem allowed_no_hash {k : String} (h : ∀ c ∈ k.toList, isAllowedChar c = true) :
    ∀ c ∈ k.toList, c ≠ '#' := by
  intro c hc
  exact allowed_ne_of_toNat (h c hc) (by left; decide)

theorem startsWithHash_append_false {sid frag : String} (hne : sid ≠ "")
    (hnh : ∀ c ∈ sid.toList, c ≠ '#') :
    startsWithHash (sid ++ frag) = false := by
  unfold startsWithHash
  rcases hl : sid.toList with _ | ⟨c, t⟩
  · exact absurd (by rw [← string_mk_toList sid, hl]) hne
  · have hceq : (sid ++ frag).toList = c :: (t ++ frag.toList) := by
      rw [string_toList_append, hl, List.cons_append]
    rw [hceq]
    have : c ≠ '#' := hnh c (by rw [hl]; exact List.mem_cons_self c t)
    simpa using this

/-- Canonical-state invariants of the store together with the claim's own
hypotheses.  `wf`, `nonempty`, `keysNodup`, `mapIntoStore`, `pathShape` and
`notPathKey` hold of every state built by `register_schema` over a real file
system (registry keys are `_clean_schema_id` images, resolved source paths
are non-empty, contain `/` — hence also `#`-free — and are therefore never
equal to a cleaned identifier); they are explicit here because paths are
abstract strings in the model.  `uniqueFp` is the claim's "each registered
identifier has exactly one source filepath". -/
structure StoreGood (st : RegState) : Prop where
  wf : ∀ p ∈ st.registry, cleanSchemaId p.1 = p.1
  nonempty : ∀ p ∈ st.registry, p.1 ≠ ""
  keysNodup : (st.registry.map Prod.fst).Nodup
  mapIntoStore : ∀ p ∈ st.mappings, (getA st.registry p.2).isSome = true
  pathShape : ∀ p ∈ st.mappings, p.1 ≠ "" ∧ ∀ c ∈ p.1.toList, c ≠ '#'
  notPathKey : ∀ p ∈ st.registry, getA st.mappings p.1 = none
  uniqueFp : ∀ p ∈ st.registry,
    (nextFilepathForSchemaId st p.1).isSome = true ∧
      getA st.mappings ((nextFilepathForSchemaId st p.1).getD "") = some p.1

theorem resolveRef_id_shape {st : RegState} (hg : StoreGood st) {r : String}
    (hres : resolvablePrefix st r = true) :
    ∃ sid, resolveRef st r .toId = sid ++ refFragment r ∧
      (getA st.registry sid).isSome = true ∧ sid ≠ "" ∧
      (∀ c ∈ sid.toList, isAllowedChar c = true) := by
  unfold resolvablePrefix at hres
  rw [Bool.or_eq_true] at hres
  by_cases hA : schemaRegistered st (refPrefix r) = true
  · unfold schemaRegistered at hA
    obtain ⟨sid, hsid⟩ := Option.isSome_iff_exists.mp hA
    have hmem : (refPrefix r, sid) ∈ st.mappings := getA_mem hsid
    have hsome := hg.mapIntoStore _ hmem
    obtain ⟨d, hd⟩ := Option.isSome_iff_exists.mp hsome
    have hkmem : (sid, d) ∈ st.registry := getA_mem hd
    refine ⟨sid, ?_, hsome, hg.nonempty _ hkmem, clean_fixed_allowed (hg.wf _ hkmem)⟩
    have hcond : schemaRegistered st (refPrefix r) = true := by
      unfold schemaRegistered
      rw [hsid]
      rfl
    simp [resolveRef, hcond, hsid]
  · have hB : schemaIdInRegistry st (refPrefix r) = true := by
      rcases hres with h | h
      · exact absurd h hA
      · exact h
    unfold schemaIdInRegistry at hB
    obtain ⟨d, hd⟩ := Option.isSome_iff_exists.mp hB
    have hkmem : (cleanSchemaId (refPrefix r), d) ∈ st.registry := getA_mem hd
    refine ⟨cleanSchemaId (refPrefix r), ?_, ?_, ?_, ?_⟩
    · have hcondA : schemaRegistered st (refPrefix r) = false := by
        simpa using hA
      have hcondB : schemaIdInRegistry st (refPrefix r) = true := by
        unfold schemaIdInRegistry
        rw [hd]
        rfl
      simp [resolveRef, hcondA, hcondB]
    · rw [hd]
      rfl
    · exact hg.nonempty _ hkmem
    · exact clean_fixed_allowed (cleanSchemaId_idem (refPrefix r))

theorem resolveRef_roundtrip {st : RegState} (hg : StoreGood st) {r : String}
    (hres : resolvablePrefix st r = true) :
    startsWithHash (resolveRef st r .toId) = false ∧
    startsWithHash (resolveRef st (resolveRef st r .toId) .toFilepath) = false ∧
    resolveRef st (resolveRef st (resolveRef st r .toId) .toFilepath) .toId =
      resolveRef st r .toId := by
  obtain ⟨sid, hr1, hsome, hne, hall⟩ := resolveRef_id_shape hg hres
  obtain ⟨d, hd⟩ := Option.isSome_iff_exists.mp hsome
  have hkmem : (sid, d) ∈ st.registry := getA_mem hd
  have hnh : ∀ c ∈ sid.toList, c ≠ '#' := allowed_no_hash hall
  have hfrag : refFragment r = "" ∨ startsWithHash (refFragment r) = true :=
    refFragment_spec r
  have hpre1 : refPrefix (sid ++ refFragment r) = sid := refPrefix_append hnh hfrag
  have hfrag1 : refFragment (sid ++ refFragment r) = refFragment r :=
    refFragment_append hnh hfrag
  have hnk : getA st.mappings sid = none := hg.notPathKey (sid, d) hkmem
  have hcl : cleanSchemaId sid = sid := hg.wf (sid, d) hkmem
  have hcondA : schemaRegistered st (refPrefix (sid ++ refFragment r)) = false := by
    unfold schemaRegistered
    rw [hpre1, hnk]
    rfl
  have hcondB : schemaIdInRegistry st (refPrefix (sid ++ refFragment r)) = true := by
    unfold schemaIdInRegistry
    rw [hpre1, hcl, hd]
    rfl
  obtain ⟨hfpS, hfpG⟩ := hg.uniqueFp (sid, d) hkmem
  obtain ⟨fp, hfp⟩ := Option.isSome_iff_exists.mp hfpS
  have hfpG' : getA st.mappings fp = some sid := by
    have h0 := hfpG
    rw [hfp] at h0
    simpa using h0
  have hnfp : nextFilepathForSchemaId st (refPrefix (sid ++ refFragment r)) =
      some fp := by
    rw [hpre1]
    exact hfp
  have hr2 : resolveRef st (sid ++ refFragment r) .toFilepath =
      fp ++ refFragment r := by
    simp [resolveRef, hcondA, hcondB, hnfp, hfrag1]
  have hfpmem : (fp, sid) ∈ st.mappings := getA_mem hfpG'
  obtain ⟨hfpne, hfpnh⟩ := hg.pathShape (fp, sid) hfpmem
  have hpre2 : refPrefix (fp ++ refFragment r) = fp := refPrefix_append hfpnh hfrag
  have hfrag2 : refFragment (fp ++ refFragment r) = refFragment r :=
    refFragment_append hfpnh hfrag
  have hcondC : schemaRegistered st fp = true := by
    unfold schemaRegistered
    rw [hfpG']
    rfl
  have hr3 : resolveRef st (fp ++ refFragment r) .toId = sid ++ refFragment r := by
    simp [resolveRef, hpre2, hcondC, hfpG', hfrag2]
  refine ⟨?_, ?_, ?_⟩
  · rw [hr1]
    exact startsWithHash_append_false hne hnh
  · rw [hr1, hr2]
    exact startsWithHash_append_false hfpne hfpnh
  · rw [hr1, hr2, hr3]

/-- Two states with the same filepath mappings and the same registry *key
set* resolve every reference identically: `_resolve_ref` reads only
`_schema_mappings` and key-presence in `_registry`.  `update_schema_refs_to`
only rewrites registry *values*, so each step of its loop preserves this
relation to the starting state. -/
def SameResolve (st0 st1 : RegState) : Prop :=
  st0.mappings = st1.mappings ∧
  ∀ k, (getA st0.registry k).isSome = (getA st1.registry k).isSome

theorem resolveRef_congr {st0 st1 : RegState} (h : SameResolve st0 st1)
    (r : String) (c : ConvertTo) : resolveRef st0 r c = resolveRef st1 r c := by
  obtain ⟨hm, hr⟩ := h
  have hA : schemaRegistered st0 (refPrefix r) = schemaRegistered st1 (refPrefix r) := by
    unfold schemaRegistered
    rw [hm]
  have hB : schemaIdInRegistry st0 (refPrefix r) = schemaIdInRegistry st1 (refPrefix r) := by
    unfold schemaIdInRegistry
    exact hr _
  have hC : nextFilepathForSchemaId st0 (refPrefix r) =
      nextFilepathForSchemaId st1 (refPrefix r) := by
    unfold nextFilepathForSchemaId
    rw [hm]
  unfold resolveRef
  rw [hA, hB, hm, hC]

mutual

theorem rsrCongr {st0 st1 : RegState} (h : SameResolve st0 st1) (c : ConvertTo) :
    ∀ j : Json, resolveSchemaRefs st0 c j = resolveSchemaRefs st1 c j
  | .null => rfl
  | .bool _ => rfl
  | .num _ => rfl
  | .str _ => rfl
  | .arr _ => rfl
  | .obj fs => congrArg Json.obj (rsrCongrFields h c fs)

theorem rsrCongrFields {st0 st1 : RegState} (h : SameResolve st0 st1) (c : ConvertTo) :
    ∀ fs : JsonFields, resolveSchemaRefsFields st0 c fs = resolveSchemaRefsFields st1 c fs
  | .nil => rfl
  | .cons k v t => by
      simp only [resolveSchemaRefsFields]
      rw [rsrCongrValue h c k v, rsrCongrFields h c t]

theorem rsrCongrValue {st0 st1 : RegState} (h : SameResolve st0 st1) (c : ConvertTo)
    (k : String) :
    ∀ v : Json, resolveSchemaRefsValue st0 c k v = resolveSchemaRefsValue st1 c k v
  | .null => rfl
  | .bool _ => rfl
  | .num _ => rfl
  | .obj fs => congrArg Json.obj (rsrCongrFields h c fs)
  | .arr xs => congrArg Json.arr (rsrCongrItems h c xs)
  | .str s => by
      simp only [resolveSchemaRefsValue]
      by_cases hc : k = "$ref" ∧ startsWithHash s = false
      · rw [if_pos hc, if_pos hc, resolveRef_congr h s c]
      · rw [if_neg hc, if_neg hc]

theorem rsrCongrItems {st0 st1 : RegState} (h : SameResolve st0 st1) (c : ConvertTo) :
    ∀ xs : JsonItems, resolveSchemaRefsItems st0 c xs = resolveSchemaRefsItems st1 c xs
  | .nil => rfl
  | .cons x t => by
      simp only [resolveSchemaRefsItems]
      rw [rsrCongrItem h c x, rsrCongrItems h c t]

theorem rsrCongrItem {st0 st1 : RegState} (h : SameResolve st0 st1) (c : ConvertTo) :
    ∀ x : Json, resolveSchemaRefsItem st0 c x = resolveSchemaRefsItem st1 c x
  | .null => rfl
  | .bool _ => rfl
  | .num _ => rfl
  | .str _ => rfl
  | .arr _ => rfl
  | .obj fs => congrArg Json.obj (rsrCongrFields h c fs)

end

mutual

/-- Round trip at document level: rewriting to ID form, then to filepath
form, then to ID form again is the same as a single rewrite to ID form,
whenever every cross-schema reference of the document has a resolvable
prefix. -/
theorem rsrRT {st : RegState} (hg : StoreGood st) :
    ∀ j : Json, (∀ r ∈ crossRefs j, resolvablePrefix st r = true) →
      resolveSchemaRefs st .toId
          (resolveSchemaRefs st .toFilepath (resolveSchemaRefs st .toId j)) =
        resolveSchemaRefs st .toId j
  | .null, _ => rfl
  | .bool _, _ => rfl
  | .num _, _ => rfl
  | .str _, _ => rfl
  | .arr _, _ => rfl
  | .obj fs, h => congrArg Json.obj (rsrRTFields hg fs h)

theorem rsrRTFields {st : RegState} (hg : StoreGood st) :
    ∀ fs : JsonFields, (∀ r ∈ crossRefsFields fs, resolvablePrefix st r = true) →
      resolveSchemaRefsFields st .toId
          (resolveSchemaRefsFields st .toFilepath (resolveSchemaRefsFields st .toId fs)) =
        resolveSchemaRefsFields st .toId fs
  | .nil, _ => rfl
  | .cons k v t, h => by
      have hv : ∀ r ∈ crossRefsValue k v, resolvablePrefix st r = true := fun r hr =>
        h r (List.mem_append.mpr (Or.inl hr))
      have ht : ∀ r ∈ crossRefsFields t, resolvablePrefix st r = true := fun r hr =>
        h r (List.mem_append.mpr (Or.inr hr))
      simp only [resolveSchemaRefsFields]
      rw [rsrRTValue hg k v hv, rsrRTFields hg t ht]

theorem rsrRTValue {st : RegState} (hg : StoreGood st) (k : String) :
    ∀ v : Json, (∀ r ∈ crossRefsValue k v, resolvablePrefix st r = true) →
      resolveSchemaRefsValue st .toId k
          (resolveSchemaRefsValue st .toFilepath k (resolveSchemaRefsValue st .toId k v)) =
        resolveSchemaRefsValue st .toId k v
  | .null, _ => rfl
  | .bool _, _ => rfl
  | .num _, _ => rfl
  | .obj fs, h => congrArg Json.obj (rsrRTFields hg fs h)
  | .arr xs, h => congrArg Json.arr (rsrRTItems hg xs h)
  | .str s, h => by
      by_cases hc : k = "$ref" ∧ startsWithHash s = false
      · obtain ⟨hk, hs⟩ := hc
        subst hk
        have hmem : s ∈ crossRefsValue "$ref" (.str s) := by
          simp [crossRefsValue, hs]
        have hres : resolvablePrefix st s = true := h s hmem
        obtain ⟨hw1, hw2, hw3⟩ := resolveRef_roundtrip hg hres
        have e1 : resolveSchemaRefsValue st .toId "$ref" (.str s) =
            .str (resolveRef st s .toId) := by
          simp [resolveSchemaRefsValue, hs]
        have e2 : resolveSchemaRefsValue st .toFilepath "$ref"
              (.str (resolveRef st s .toId)) =
            .str (resolveRef st (resolveRef st s .toId) .toFilepath) := by
          simp [resolveSchemaRefsValue, hw1]
        have e3 : resolveSchemaRefsValue st .toId "$ref"
              (.str (resolveRef st (resolveRef st s .toId) .toFilepath)) =
            .str (resolveRef st
              (resolveRef st (resolveRef st s .toId) .toFilepath) .toId) := by
          simp [resolveSchemaRefsValue, hw2]
        rw [e1, e2, e3, hw3]
      · have e0 : resolveSchemaRefsValue st .toId k (.str s) = .str s := by
          simp only [resolveSchemaRefsValue]
          rw [if_neg hc]
        have e0f : resolveSchemaRefsValue st .toFilepath k (.str s) = .str s := by
          simp only [resolveSchemaRefsValue]
          rw [if_neg hc]
        rw [e0, e0f, e0]

theorem rsrRTItems {st : RegState} (hg : StoreGood st) :
    ∀ xs : JsonItems, (∀ r ∈ crossRefsItems xs, resolvablePrefix st r = true) →
      resolveSchemaRefsItems st .toId
          (resolveSchemaRefsItems st .toFilepath (resolveSchemaRefsItems st .toId xs)) =
        resolveSchemaRefsItems st .toId xs
  | .nil, _ => rfl
  | .cons x t, h => by
      have hx : ∀ r ∈ crossRefsItem x, resolvablePrefix st r = true := fun r hr =>
        h r (List.mem_append.mpr (Or.inl hr))
      have ht : ∀ r ∈ crossRefsItems t, resolvablePrefix st r = true := fun r hr =>
        h r (List.mem_append.mpr (Or.inr hr))
      simp only [resolveSchemaRefsItems]
      rw [rsrRTItem hg x hx, rsrRTItems hg t ht]

theorem rsrRTItem {st : RegState} (hg : StoreGood st) :
    ∀ x : Json, (∀ r ∈ crossRefsItem x, resolvablePrefix st r = true) →
      resolveSchemaRefsItem st .toId
          (resolveSchemaRefsItem st .toFilepath (resolveSchemaRefsItem st .toId x)) =
        resolveSchemaRefsItem st .toId x
  | .null, _ => rfl
  | .bool _, _ => rfl
  | .num _, _ => rfl
  | .str _, _ => rfl
  | .arr _, _ => rfl
  | .obj fs, h => congrArg Json.obj (rsrRTFields hg fs h)

end

/-- Behaviour of the rewrite loop of `update_schema_refs_to`: processing a
duplicate-free list of identifiers that are all present in the registry
replaces each one's document by the rewrite of its *original* document
computed against the reference-resolution data of `st0` (any state the
current one resolves like), leaves untouched keys alone, and preserves the
key list, the mappings, and the resolution data. -/
theorem updateRefsLoop_spec (c : ConvertTo) :
    ∀ (L : List String) (st0 cur : RegState), SameResolve st0 cur → L.Nodup →
      (∀ s ∈ L, (getA cur.registry s).isSome = true) →
      (∀ s ∈ L, getA (updateRefsLoop cur c L).registry s =
          some (resolveSchemaRefs st0 c ((getA cur.registry s).getD (.obj .nil)))) ∧
      (∀ s, s ∉ L → getA (updateRefsLoop cur c L).registry s = getA cur.registry s) ∧
      (updateRefsLoop cur c L).registry.map Prod.fst = cur.registry.map Prod.fst ∧
      (updateRefsLoop cur c L).mappings = cur.mappings ∧
      SameResolve st0 (updateRefsLoop cur c L) := by
  intro L
  induction L with
  | nil =>
      intro st0 cur hSR _ _
      exact ⟨fun s hs => absurd hs (List.not_mem_nil s), fun s _ => rfl, rfl, rfl, hSR⟩
  | cons sid rest ih =>
      intro st0 cur hSR hND hSome
      have hnodup := List.nodup_cons.mp hND
      have hsome : (getA cur.registry sid).isSome = true :=
        hSome sid (List.mem_cons_self sid rest)
      obtain ⟨d, hd⟩ := Option.isSome_iff_exists.mp hsome
      have hGetD : (getA cur.registry sid).getD (Json.obj .nil) = d := by
        rw [hd]
        rfl
      have hSR' : SameResolve st0
          { cur with registry := setA cur.registry sid (resolveSchemaRefs cur c ((getA cur.registry sid).getD (.obj .nil))) } :=
        ⟨hSR.1, fun k => (hSR.2 k).trans (getA_isSome_setA _ hsome k).symm⟩
      have hSome' : ∀ s ∈ rest,
          (getA ({ cur with registry := setA cur.registry sid (resolveSchemaRefs cur c ((getA cur.registry sid).getD (.obj .nil))) } : RegState).registry s).isSome = true :=
        fun s hs =>
          (getA_isSome_setA _ hsome s).trans (hSome s (List.mem_cons_of_mem sid hs))
      obtain ⟨ih1, ih2, ih3, ih4, ih5⟩ := ih st0
        { cur with registry := setA cur.registry sid (resolveSchemaRefs cur c ((getA cur.registry sid).getD (.obj .nil))) }
        hSR' hnodup.2 hSome'
      have hstep : updateRefsLoop cur c (sid :: rest) =
          updateRefsLoop
            { cur with registry := setA cur.registry sid (resolveSchemaRefs cur c ((getA cur.registry sid).getD (.obj .nil))) }
            c rest := rfl
      rw [hstep]
      refine ⟨?_, ?_, ?_, ?_, ih5⟩
      · intro s hs
        rcases List.mem_cons.mp hs with h1 | h1
        · subst h1
          rw [ih2 s hnodup.1]
          simp only [getA_setA_self]
          rw [hGetD, ← rsrCongr hSR c d]
        · have hne : s ≠ sid := fun he => hnodup.1 (he ▸ h1)
          rw [ih1 s h1]
          simp only [getA_setA_ne _ _ _ _ hne]
      · intro s hs
        have hne : s ≠ sid := fun he => hs (by rw [he]; exact List.mem_cons_self sid rest)
        have hnr : s ∉ rest := fun hm => hs (List.mem_cons_of_mem sid hm)
        rw [ih2 s hnr]
        simp only [getA_setA_ne _ _ _ _ hne]
      · rw [ih3]
        simp only [setA_keys_of_present _ hsome]
      · rw [ih4]

/-- `update_schema_refs_to` at state level: every stored document is
replaced by its rewrite computed against `st0`, and keys, mappings and
resolution data are preserved. -/
theorem updateSchemaRefsTo_getA {st0 st : RegState}
    (hSR : SameResolve st0 st)
    (hkeys : st.registry.map Prod.fst = st0.registry.map Prod.fst)
    (hND : (st.registry.map Prod.fst).Nodup) (c : ConvertTo) :
    (∀ i d, getA st.registry i = some d →
       getA (updateSchemaRefsTo st c).registry i = some (resolveSchemaRefs st0 c d)) ∧
    (updateSchemaRefsTo st c).registry.map Prod.fst = st0.registry.map Prod.fst ∧
    (updateSchemaRefsTo st c).mappings = st.mappings ∧
    SameResolve st0 (updateSchemaRefsTo st c) := by
  have hA : SameResolve st0 ({ st with validatorCache := [] } : RegState) := hSR
  have hSome : ∀ s ∈ st.registry.map (fun p => p.1),
      (getA ({ st with validatorCache := [] } : RegState).registry s).isSome = true :=
    fun s hs => mem_keys_isSome hs
  obtain ⟨l1, l2, l3, l4, l5⟩ :=
    updateRefsLoop_spec c (st.registry.map (fun p => p.1)) st0
      { st with validatorCache := [] } hA hND hSome
  refine ⟨?_, ?_, l4, l5⟩
  · intro i d hd
    have hki : i ∈ st.registry.map (fun p => p.1) :=
      List.mem_map.mpr ⟨(i, d), getA_mem hd, rfl⟩
    have e1 := l1 i hki
    rw [show getA ({ st with validatorCache := [] } : RegState).registry i = some d from hd] at e1
    exact e1
  · exact l3.trans hkeys

/-- **C8**: for a registry whose stored documents all have resolvable
reference prefixes and in which each identifier has exactly one source
filepath (the `StoreGood` hypotheses), `update_schema_refs_to("id")`
followed by `update_schema_refs_to("filepath")` stores, for each
identifier, the ID-form rewrite of its original document re-rewritten to
filepath form; that result is equivalent to the original document up to
normalization — normalizing it to ID form gives exactly the ID-form
normalization of the original.  Moreover a reference whose prefix matches
neither a registered source path nor a registered identifier is left
unchanged by either per-reference rewrite. -/
theorem C8_roundtrip_rewrite {st : RegState} (hg : StoreGood st)
    (hres : ∀ p ∈ st.registry, ∀ r ∈ crossRefs p.2, resolvablePrefix st r = true) :
    (∀ i d, getA st.registry i = some d →
       getA (updateSchemaRefsTo (updateSchemaRefsTo st .toId) .toFilepath).registry i =
         some (resolveSchemaRefs st .toFilepath (resolveSchemaRefs st .toId d)) ∧
       resolveSchemaRefs st .toId
           (resolveSchemaRefs st .toFilepath (resolveSchemaRefs st .toId d)) =
         resolveSchemaRefs st .toId d) ∧
    (∀ r, resolvablePrefix st r = false →
       resolveRef st r .toId = r ∧ resolveRef st r .toFilepath = r) := by
  have hSRself : SameResolve st st := ⟨rfl, fun _ => rfl⟩
  obtain ⟨a1, a2, a3, a4⟩ := updateSchemaRefsTo_getA hSRself rfl hg.keysNodup .toId
  obtain ⟨b1, b2, b3, b4⟩ := updateSchemaRefsTo_getA a4 a2
    (by rw [a2]; exact hg.keysNodup) .toFilepath
  refine ⟨?_, ?_⟩
  · intro i d hd
    refine ⟨b1 i (resolveSchemaRefs st .toId d) (a1 i d hd), ?_⟩
    exact rsrRT hg d (hres (i, d) (getA_mem hd))
  · intro r hr
    rw [resolvablePrefix, Bool.or_eq_false_iff] at hr
    exact ⟨by simp [resolveRef, hr.1, hr.2], by simp [resolveRef, hr.1, hr.2]⟩

/-- Concrete child schema for the round-trip witness. -/
def c8child : Json :=
  .obj (.cons "$id" (.str "child_schema") (.cons "type" (.str "object") .nil))

/-- Concrete parent schema with one cross-schema `$ref` in path form. -/
def c8parent : Json :=
  .obj (.cons "$id" (.str "parent_schema")
    (.cons "properties"
      (.obj (.cons "c" (.obj (.cons "$ref" (.str "/abs/child_schema.json") .nil)) .nil))
      .nil))

/-- Concrete registry state for the round-trip witness: both schemas
registered from files. -/
def c8st : RegState :=
  { registry := [("child_schema", c8child), ("parent_schema", c8parent)],
    mappings := [("/abs/child_schema.json", "child_schema"),
                 ("/abs/parent_schema.json", "parent_schema")],
    validatorCache := [] }

theorem C8_roundtrip_rewrite_witness :
    (getA (updateSchemaRefsTo (updateSchemaRefsTo c8st .toId) .toFilepath).registry
        "parent_schema" =
      some (resolveSchemaRefs c8st .toFilepath (resolveSchemaRefs c8st .toId c8parent)) ∧
     resolveSchemaRefs c8st .toId
         (resolveSchemaRefs c8st .toFilepath (resolveSchemaRefs c8st .toId c8parent)) =
       resolveSchemaRefs c8st .toId c8parent) ∧
    (resolveRef c8st "unknown_schema" .toId = "unknown_schema" ∧
     resolveRef c8st "unknown_schema" .toFilepath = "unknown_schema") :=
  ⟨(C8_roundtrip_rewrite
      ⟨by decide, by decide, by decide, by decide, by decide, by decide, by decide⟩
      (by decide)).1 "parent_schema" c8parent (by decide),
   (C8_roundtrip_rewrite
      ⟨by decide, by decide, by decide, by decide, by decide, by decide, by decide⟩
      (by decide)).2 "unknown_schema" (by decide)⟩

/-! ## C4: the auditor (`check_unresolvable_refs`)

Modelled from the spec: `check_unresolvable_refs` is exercised by
`src/tests/test_jsonschema.py` (lines 321 and 350) but has no
implementation under `src/`; the definitions below follow §4.3/§4.5 of the
spec (transitive walk with a visited set keyed by identifier, prefix
resolution against the store's full contents). -/

/-- Modelled from the spec: the identifier a reference prefix resolves to —
via the source-path mapping first, then via the normalized identifier;
`none` when the prefix is unresolvable. -/
def refTargetId (st : RegState) (r : String) : Option String :=
  if schemaRegistered st (refPrefix r) then getA st.mappings (refPrefix r)
  else if schemaIdInRegistry st (refPrefix r) then some (cleanSchemaId (refPrefix r))
  else none

/-- Number of registry keys not yet visited: the primary termination
measure of the walk. -/
def unvisitedCount (st : RegState) (vis : List String) : Nat :=
  ((st.registry.map Prod.fst).filter (fun k => !vis.contains k)).length

theorem filter_length_le_of_imp {α : Type} (l : List α) (p q : α → Bool)
    (h : ∀ a, p a = true → q a = true) :
    (l.filter p).length ≤ (l.filter q).length := by
  induction l with
  | nil => simp
  | cons a t ih =>
      simp only [List.filter_cons]
      by_cases hp : p a = true
      · rw [if_pos hp, if_pos (h a hp)]
        simpa using ih
      · rw [if_neg hp]
        by_cases hq : q a = true
        · rw [if_pos hq]
          exact ih.trans (by simp)
        · rw [if_neg hq]
          exact ih

theorem contains_true_iff (l : List String) (a : String) : l.contains a = true ↔ a ∈ l := by
  simp

theorem contains_eq_false_of_notmem {l : List String} {a : String} (h : a ∉ l) :
    l.contains a = false := by
  cases hc : l.contains a
  · rfl
  · exact absurd ((contains_true_iff l a).mp hc) h

theorem contains_cons_ne {vis : List String} {i a : String} (h : ¬ a = i) :
    (i :: vis).contains a = vis.contains a := by
  cases hva : vis.contains a
  · refine contains_eq_false_of_notmem ?_
    intro hm
    rcases List.mem_cons.mp hm with h1 | h1
    · exact h h1
    · rw [(contains_true_iff _ _).mpr h1] at hva
      exact Bool.noConfusion hva
  · exact (contains_true_iff _ _).mpr
      (List.mem_cons_of_mem i ((contains_true_iff _ _).mp hva))

theorem visited_cons_imp (vis : List String) (i : String) :
    ∀ a : String, (!(i :: vis).contains a) = true → (!vis.contains a) = true := by
  intro a ha
  have hnm : a ∉ (i :: vis) := by
    intro hmem
    rw [(contains_true_iff _ _).mpr hmem] at ha
    exact absurd ha (by decide)
  rw [contains_eq_false_of_notmem (fun hm => hnm (List.mem_cons_of_mem i hm))]
  rfl

theorem filter_contains_cons_notmem (vis : List String) (i : String) :
    ∀ l : List String, i ∉ l →
      l.filter (fun k => !(i :: vis).contains k) = l.filter (fun k => !vis.contains k)
  | [], _ => rfl
  | a :: t, hk => by
      have hai : ¬ a = i := fun h => hk (by rw [h]; exact List.mem_cons_self i t)
      simp only [List.filter_cons, contains_cons_ne hai]
      rw [filter_contains_cons_notmem vis i t (fun h => hk (List.mem_cons_of_mem a h))]

theorem filter_contains_cons_lt (vis : List String) (i : String)
    (hv : vis.contains i = false) :
    ∀ l : List String, i ∈ l →
      (l.filter (fun k => !(i :: vis).contains k)).length <
        (l.filter (fun k => !vis.contains k)).length
  | a :: t, hk => by
      simp only [List.filter_cons]
      by_cases hai : a = i
      · subst hai
        have h1 : (a :: vis).contains a = true :=
          (contains_true_iff _ _).mpr (List.mem_cons_self a vis)
        rw [if_neg (show ¬((!(a :: vis).contains a) = true) by rw [h1]; decide),
            if_pos (show (!vis.contains a) = true by rw [hv]; rfl)]
        have hle := filter_length_le_of_imp t _ _ (visited_cons_imp vis a)
        simp only [List.length_cons]
        omega
      · rw [contains_cons_ne hai]
        have hk' : i ∈ t := by
          rcases List.mem_cons.mp hk with h | h
          · exact absurd h.symm hai
          · exact h
        cases hva : vis.contains a
        · simp only [show ((!false) = true) = True by simp, if_true, List.length_cons]
          exact Nat.succ_lt_succ (filter_contains_cons_lt vis i hv t hk')
        · simp only [show ((!true) = true) = False by simp, if_false]
          exact filter_contains_cons_lt vis i hv t hk'

theorem unvisitedCount_cons_lt {st : RegState} {vis : List String} {i : String}
    (hk : i ∈ st.registry.map Prod.fst) (hv : vis.contains i = false) :
    unvisitedCount st (i :: vis) < unvisitedCount st vis :=
  filter_contains_cons_lt vis i hv _ hk

theorem unvisitedCount_cons_notkey {st : RegState} {vis : List String} {i : String}
    (hk : i ∉ st.registry.map Prod.fst) :
    unvisitedCount st (i :: vis) = unvisitedCount st vis :=
  congrArg List.length (filter_contains_cons_notmem vis i _ hk)

/-- Modelled from the spec: the Reference Walker / Auditor work loop.  It
visits each pending identifier once (the visited set guards against
cycles), collects every cross-schema reference of the visited document
whose prefix does not resolve, and queues the resolved target identifiers
for transitive visiting. -/
def walkAudit (st : RegState) (visited pending : List String) : List String :=
  match pending with
  | [] => []
  | i :: rest =>
      if hvis : visited.contains i = true then walkAudit st visited rest
      else
        match hreg : getA st.registry i with
        | none => walkAudit st (i :: visited) rest
        | some d =>
            (crossRefs d).filter (fun r => (refTargetId st r).isNone) ++
              walkAudit st (i :: visited)
                ((crossRefs d).filterMap (refTargetId st) ++ rest)
termination_by (unvisitedCount st visited, pending.length)
decreasing_by
  · apply Prod.Lex.right
    simp
  · have hnk : i ∉ st.registry.map Prod.fst := by
      intro hm
      have hs := mem_keys_isSome hm
      rw [hreg] at hs
      simp at hs
    rw [unvisitedCount_cons_notkey hnk]
    apply Prod.Lex.right
    simp
  · have hvf : visited.contains i = false := by
      cases h2 : visited.contains i
      · rfl
      · exact absurd h2 hvis
    have hk : i ∈ st.registry.map Prod.fst :=
      List.mem_map.mpr ⟨(i, d), getA_mem hreg, rfl⟩
    exact Prod.Lex.left _ _ (unvisitedCount_cons_lt hk hvf)

/-- Modelled from the spec: `checkUnresolvableRefs` — walk the transitive
references of every identifier currently in the store and report every
reference whose prefix cannot be resolved against the store's full
contents. -/
def checkUnresolvableRefs (st : RegState) : List String :=
  walkAudit st [] (st.registry.map Prod.fst)

theorem walkAudit_nil (st : RegState) (visited : List String) :
    walkAudit st visited [] = [] := by
  rw [walkAudit]

theorem walkAudit_cons_visited {st : RegState} {visited : List String} {i : String}
    {rest : List String} (h : visited.contains i = true) :
    walkAudit st visited (i :: rest) = walkAudit st visited rest := by
  have hm : i ∈ visited := (contains_true_iff _ _).mp h
  rw [walkAudit]
  simp [hm]

theorem walkAudit_cons_none {st : RegState} {visited : List String} {i : String}
    {rest : List String} (h1 : visited.contains i = false)
    (h2 : getA st.registry i = none) :
    walkAudit st visited (i :: rest) = walkAudit st (i :: visited) rest := by
  have hnm : i ∉ visited := fun hm => by
    rw [(contains_true_iff _ _).mpr hm] at h1
    exact Bool.noConfusion h1
  rw [walkAudit]
  simp [hnm]
  split
  · rfl
  · next d heq =>
      rw [h2] at heq
      exact Option.noConfusion heq

theorem walkAudit_cons_some {st : RegState} {visited : List String} {i : String}
    {rest : List String} {d : Json} (h1 : visited.contains i = false)
    (h2 : getA st.registry i = some d) :
    walkAudit st visited (i :: rest) =
      (crossRefs d).filter (fun r => (refTargetId st r).isNone) ++
        walkAudit st (i :: visited)
          ((crossRefs d).filterMap (refTargetId st) ++ rest) := by
  have hnm : i ∉ visited := fun hm => by
    rw [(contains_true_iff _ _).mpr hm] at h1
    exact Bool.noConfusion h1
  rw [walkAudit]
  simp [hnm]
  split
  · next heq =>
      rw [h2] at heq
      exact Option.noConfusion heq
  · next d2 heq =>
      rw [h2] at heq
      cases Option.some.inj heq
      rfl

theorem walkAudit_sound (st : RegState)
    (h : ∀ p ∈ st.registry, ∀ r ∈ crossRefs p.2, (refTargetId st r).isSome = true) :
    ∀ visited pending : List String, walkAudit st visited pending = [] := by
  intro visited pending
  induction visited, pending using walkAudit.induct st
  · exact walkAudit_nil st _
  · next vis i0 rest hvis ih =>
      rw [walkAudit_cons_visited hvis]
      exact ih
  · next vis i0 rest hvis hreg ih =>
      have hvf0 : vis.contains i0 = false := by
        cases hx : vis.contains i0
        · rfl
        · exact absurd hx hvis
      rw [walkAudit_cons_none hvf0 hreg]
      exact ih
  · next vis i0 rest hvis d0 hreg ih =>
      have hvf0 : vis.contains i0 = false := by
        cases hx : vis.contains i0
        · rfl
        · exact absurd hx hvis
      rw [walkAudit_cons_some hvf0 hreg]
      have hfil : (crossRefs d0).filter (fun r => (refTargetId st r).isNone) = [] := by
        refine List.filter_eq_nil_iff.mpr ?_
        intro r hr
        have hs := h (i0, d0) (getA_mem hreg) r hr
        intro hcon
        rw [Option.isNone_iff_eq_none.mp hcon] at hs
        exact absurd hs (by decide)
      rw [hfil]
      simp only [List.nil_append]
      exact ih

theorem walkAudit_complete (st : RegState) :
    ∀ visited pending : List String,
      ∀ i ∈ pending, visited.contains i = false →
      ∀ d, getA st.registry i = some d →
      ∀ r ∈ crossRefs d, refTargetId st r = none →
      r ∈ walkAudit st visited pending := by
  intro visited pending
  induction visited, pending using walkAudit.induct st
  · next vis =>
      intro i hi
      exact absurd hi (List.not_mem_nil i)
  · next vis i0 rest hvis ih =>
      intro i hi hvf d hd r hr hnone
      rw [walkAudit_cons_visited hvis]
      rcases List.mem_cons.mp hi with h1 | h1
      · exfalso
        rw [h1] at hvf
        rw [hvf] at hvis
        exact Bool.noConfusion hvis
      · exact ih i h1 hvf d hd r hr hnone
  · next vis i0 rest hvis hreg ih =>
      intro i hi hvf d hd r hr hnone
      have hvf0 : vis.contains i0 = false := by
        cases hx : vis.contains i0
        · rfl
        · exact absurd hx hvis
      rw [walkAudit_cons_none hvf0 hreg]
      have hne : ¬ i = i0 := fun he => by
        rw [he, hreg] at hd
        exact Option.noConfusion hd
      rcases List.mem_cons.mp hi with h1 | h1
      · exact absurd h1 hne
      · refine ih i h1 ?_ d hd r hr hnone
        rw [contains_cons_ne hne]
        exact hvf
  · next vis i0 rest hvis d0 hreg ih =>
      intro i hi hvf d hd r hr hnone
      have hvf0 : vis.contains i0 = false := by
        cases hx : vis.contains i0
        · rfl
        · exact absurd hx hvis
      rw [walkAudit_cons_some hvf0 hreg]
      by_cases hii : i = i0
      · rw [hii, hreg] at hd
        cases Option.some.inj hd
        refine List.mem_append.mpr (Or.inl ?_)
        refine List.mem_filter.mpr ⟨hr, ?_⟩
        rw [hnone]
        rfl
      · rcases List.mem_cons.mp hi with h1 | h1
        · exact absurd h1 hii
        · refine List.mem_append.mpr (Or.inr ?_)
          refine ih i (List.mem_append.mpr (Or.inr h1)) ?_ d hd r hr hnone
          rw [contains_cons_ne hii]
          exact hvf

/-- Cyclic store for the auditor witness: two schemas referencing each
other. -/
def c4cyc : RegState :=
  { registry := [("a_schema", .obj (.cons "$ref" (.str "b_schema") .nil)),
                 ("b_schema", .obj (.cons "$ref" (.str "a_schema") .nil))],
    mappings := [], validatorCache := [] }

/-- Store with one unresolvable reference for the auditor witness. -/
def c4bad : RegState :=
  { registry := [("bad_schema", .obj (.cons "$ref" (.str "missing_schema") .nil))],
    mappings := [], validatorCache := [] }

/-- **C4**: the auditor `check_unresolvable_refs` (modelled from the spec —
the function is exercised by the tests but absent from `src/`) is a total,
deterministic function: it terminates on every store, including stores
whose schemas reference each other cyclically (the visited set keyed by
identifier guards the recursion).  It is complete — every cross-schema
reference of a stored document whose prefix cannot be resolved against the
store's full contents is reported — and sound: when every stored
document's references resolve (as cycle members mutually do), it reports
nothing. -/
theorem C4_check_unresolvable_refs (st : RegState) :
    (∀ i d, getA st.registry i = some d →
       ∀ r ∈ crossRefs d, refTargetId st r = none →
       r ∈ checkUnresolvableRefs st) ∧
    ((∀ p ∈ st.registry, ∀ r ∈ crossRefs p.2, (refTargetId st r).isSome = true) →
       checkUnresolvableRefs st = []) := by
  refine ⟨?_, ?_⟩
  · intro i d hd r hr hnone
    refine walkAudit_complete st [] (st.registry.map Prod.fst) i ?_ rfl d hd r hr hnone
    exact List.mem_map.mpr ⟨(i, d), getA_mem hd, rfl⟩
  · intro h
    exact walkAudit_sound st h [] _

theorem C4_check_unresolvable_refs_witness :
    checkUnresolvableRefs c4cyc = [] ∧
    "missing_schema" ∈ checkUnresolvableRefs c4bad :=
  ⟨(C4_check_unresolvable_refs c4cyc).2 (by decide),
   (C4_check_unresolvable_refs c4bad).1 "bad_schema"
     (.obj (.cons "$ref" (.str "missing_schema") .nil)) (by decide)
     "missing_schema" (by decide) (by decide)⟩
